import Mathlib

/-!
Verification of the node / node-set layer of an XPath-style engine
(`src/nodeset.rs`): the `Node` tagged union over document-tree entities,
the `Nodeset` collection, the document-order-first query, the per-kind
string-value rule and prefixed-name resolution.

The document/arena collaborator (the `document::dom4` crate) is external to
the verified source; it is modelled here as an explicit tree of
`XNode` values owned by a `Document`, with entity references represented by
a document id plus the path of child indices from the root (attribute
entities additionally carry their position in the owning element's
attribute list).  This gives the same identity semantics as the arena
references in the source: two references are equal iff they denote the same
slot of the same document.
-/

/-- A qualified name: an optional namespace URI plus a local part
(models `document::QName`). -/
structure QName where
  namespace_uri : Option String
  local_part : String
deriving DecidableEq

/-- The data stored for one attribute of an element: its qualified name, its
value string, and its preferred-prefix hint (`prefHint` models the
`preferred_prefix()` accessor of a `dom4::Attribute`). -/
structure AttributeData where
  name : QName
  value : String
  prefHint : Option String
deriving DecidableEq

/-- One stored node of the document tree (models the arena-owned entities of
`dom4`).  An element carries its qualified name, its preferred-prefix hint,
its namespace-prefix registrations (`regs`, a list of (prefix, uri) pairs),
its attribute list and its child list. -/
inductive XNode where
  | element (name : QName) (prefHint : Option String)
      (regs : List (String × String))
      (attrs : List AttributeData) (children : List XNode)
  | text (content : String)
  | comment (content : String)
  | pi (target : String) (value : Option String)

mutual

/-- Decidable equality of stored tree nodes. -/
def XNode.decEq : (a b : XNode) → Decidable (a = b)
  | .element n1 h1 r1 a1 c1, .element n2 h2 r2 a2 c2 =>
    if hn : n1 = n2 then
      if hh : h1 = h2 then
        if hr : r1 = r2 then
          if ha : a1 = a2 then
            match XNode.decEqList c1 c2 with
            | isTrue hc => isTrue (by rw [hn, hh, hr, ha, hc])
            | isFalse hc => isFalse (by intro h; injection h; contradiction)
          else isFalse (by intro h; injection h; contradiction)
        else isFalse (by intro h; injection h; contradiction)
      else isFalse (by intro h; injection h; contradiction)
    else isFalse (by intro h; injection h; contradiction)
  | .element .., .text _ => isFalse (fun h => nomatch h)
  | .element .., .comment _ => isFalse (fun h => nomatch h)
  | .element .., .pi .. => isFalse (fun h => nomatch h)
  | .text _, .element .. => isFalse (fun h => nomatch h)
  | .text s1, .text s2 =>
    if hs : s1 = s2 then isTrue (by rw [hs])
    else isFalse (by intro h; injection h; contradiction)
  | .text _, .comment _ => isFalse (fun h => nomatch h)
  | .text _, .pi .. => isFalse (fun h => nomatch h)
  | .comment _, .element .. => isFalse (fun h => nomatch h)
  | .comment _, .text _ => isFalse (fun h => nomatch h)
  | .comment s1, .comment s2 =>
    if hs : s1 = s2 then isTrue (by rw [hs])
    else isFalse (by intro h; injection h; contradiction)
  | .comment _, .pi .. => isFalse (fun h => nomatch h)
  | .pi .., .element .. => isFalse (fun h => nomatch h)
  | .pi .., .text _ => isFalse (fun h => nomatch h)
  | .pi .., .comment _ => isFalse (fun h => nomatch h)
  | .pi t1 v1, .pi t2 v2 =>
    if ht : t1 = t2 then
      if hv : v1 = v2 then isTrue (by rw [ht, hv])
      else isFalse (by intro h; injection h; contradiction)
    else isFalse (by intro h; injection h; contradiction)

/-- Decidable equality of lists of stored tree nodes. -/
def XNode.decEqList : (a b : List XNode) → Decidable (a = b)
  | [], [] => isTrue rfl
  | [], _ :: _ => isFalse (fun h => nomatch h)
  | _ :: _, [] => isFalse (fun h => nomatch h)
  | x :: xs, y :: ys =>
    match XNode.decEq x y, XNode.decEqList xs ys with
    | isTrue h1, isTrue h2 => isTrue (by rw [h1, h2])
    | isFalse h1, _ => isFalse (by intro h; injection h; contradiction)
    | _, isFalse h2 => isFalse (by intro h; injection h; contradiction)

end

instance : DecidableEq XNode := XNode.decEq

mutual

/-- The number of traversal-visited slots of a subtree: the node itself,
its attributes and, recursively, its children. -/
def XNode.size : XNode → Nat
  | .element _ _ _ attrs cs => 1 + attrs.length + XNode.sizeList cs
  | .text _ => 1
  | .comment _ => 1
  | .pi .. => 1

/-- Total `XNode.size` of a list of subtrees. -/
def XNode.sizeList : List XNode → Nat
  | [] => 0
  | c :: cs => c.size + XNode.sizeList cs

end

/-- A document: the ordered list of children of its root
(models `dom4::Root`). -/
structure Document where
  rootChildren : List XNode
deriving DecidableEq

/-- The collection of all documents; a `dom4::Document` reference is
modelled as an index into this list. -/
def World : Type := List Document

/-- The default used when a document index does not resolve (such an index
is unrepresentable in the source, where document references are always
valid). -/
def emptyDocument : Document := ⟨[]⟩

/-- Fetch the document with the given id. -/
def World.doc (w : World) (d : Nat) : Document :=
  List.getD w d emptyDocument

/-- The `Node` tagged union of `nodeset.rs`: one variant per document
construct.  Each variant carries the document id of the wrapped entity plus
the entity's identity (the path of child indices from the root; attributes
additionally carry their position in the owning element's attribute list;
namespace pseudo-nodes carry their data directly, mirroring the synthesized
`Namespace` struct whose fields are the parent element, the prefix and the
URI). -/
inductive Node where
  | root (d : Nat)
  | element (d : Nat) (p : List Nat)
  | attribute (d : Nat) (p : List Nat) (i : Nat)
  | text (d : Nat) (p : List Nat)
  | comment (d : Nat) (p : List Nat)
  | nsNode (d : Nat) (p : List Nat) (pfx : String) (uri : String)
  | processingInstruction (d : Nat) (p : List Nat)
deriving DecidableEq

/-- The id of the owning document (models `Node::document`, which dispatches
to the wrapped entity's document accessor in every variant). -/
def Node.docId : Node → Nat
  | .root d => d
  | .element d _ => d
  | .attribute d _ _ => d
  | .text d _ => d
  | .comment d _ => d
  | .nsNode d _ _ _ => d
  | .processingInstruction d _ => d

/-- The tree path of the wrapped entity (the identity component shared by
the tree-stored variants; for an attribute, the path of its owning
element; for the root, the empty path). -/
def Node.pathOf : Node → List Nat
  | .root _ => []
  | .element _ p => p
  | .attribute _ p _ => p
  | .text _ p => p
  | .comment _ p => p
  | .nsNode _ p _ _ => p
  | .processingInstruction _ p => p

/-- Convert a stored tree node at a given document/path into the `Node`
union (models the `Into<Node>` conversions of `nodeset.rs`). -/
def toNodeAt (d : Nat) (p : List Nat) : XNode → Node
  | .element .. => .element d p
  | .text _ => .text d p
  | .comment _ => .comment d p
  | .pi .. => .processingInstruction d p

/-- The stored children of a tree node (elements only; every other kind is a
leaf). -/
def XNode.childList : XNode → List XNode
  | .element _ _ _ _ cs => cs
  | _ => []

/-- The stored attribute list of a tree node (elements only). -/
def XNode.attrList : XNode → List AttributeData
  | .element _ _ _ attrs _ => attrs
  | _ => []

/-- Resolve a non-empty path of child indices inside a forest of trees. -/
def findNode : List XNode → List Nat → Option XNode
  | _, [] => none
  | forest, [i] => forest.get? i
  | forest, i :: rest => (forest.get? i).bind fun x => findNode x.childList rest

/-- Build the `Node` values for the children of a tree node, starting at
child index `k` (models `children().iter().map(|&c| c.into())`). -/
def childNodesFrom (d : Nat) (p : List Nat) (k : Nat) : List XNode → List Node
  | [] => []
  | c :: cs => toNodeAt d (p ++ [k]) c :: childNodesFrom d p (k + 1) cs

/-- Build the `Node` values for the attributes of an element, starting at
attribute index `k` (models `attributes().into_iter().map(|a| a.into())`). -/
def attrNodesFrom (d : Nat) (p : List Nat) (k : Nat) : List AttributeData → List Node
  | [] => []
  | _ :: rest => Node.attribute d p k :: attrNodesFrom d p (k + 1) rest

/-- `Node::children`: Root and Element delegate to the stored child list,
converting each child; every other variant returns the empty list. -/
def Node.children (w : World) : Node → List Node
  | .root d => childNodesFrom d [] 0 (w.doc d).rootChildren
  | .element d p =>
    match findNode (w.doc d).rootChildren p with
    | some x => childNodesFrom d p 0 x.childList
    | none => []
  | _ => []

/-- The attribute `Node`s of an element (models `e.attributes()` as used by
the document-order traversal; empty for every other variant). -/
def Node.attributeNodes (w : World) : Node → List Node
  | .element d p =>
    match findNode (w.doc d).rootChildren p with
    | some x => attrNodesFrom d p 0 x.attrList
    | none => []
  | _ => []

/-- Bound on the number of traversal steps rooted at one node: the size of
the referenced subtree (`1` for leaves and for references that do not
resolve). -/
def Node.weight (w : World) : Node → Nat
  | .root d => 1 + XNode.sizeList (w.doc d).rootChildren
  | .element d p =>
    match findNode (w.doc d).rootChildren p with
    | some x => x.size
    | none => 1
  | _ => 1

/-- Total traversal-step bound for a stack of nodes. -/
def stackWeight (w : World) (s : List Node) : Nat :=
  (s.map (Node.weight w)).sum

/-- One run of the explicit-stack preorder traversal of
`Nodeset::document_order_first`, listing the visited nodes in visitation
order (the position in this list is the index the source records in its
`order` hash map).  Each loop iteration pops the top node `n`, records it,
pushes `n`'s children in reverse order (so they pop in forward order) and
then, for an element, pushes its attributes in stored order (so they pop
in reverse stored order).  The `fuel` argument only bounds the number of
iterations so that the definition is structural; `stackWeight` fuel is
always sufficient (`docOrderVisitFuel_congr` below). -/
def docOrderVisitFuel (w : World) : Nat → List Node → List Node
  | _, [] => []
  | 0, _ :: _ => []
  | fuel + 1, n :: rest =>
    n :: docOrderVisitFuel w fuel
      ((Node.attributeNodes w n).reverse ++ Node.children w n ++ rest)

/-- The stack traversal run to completion: `stackWeight` fuel is always
enough (`docOrderVisit_cons` below shows this satisfies the loop's
recurrence exactly). -/
def docOrderVisit (w : World) (s : List Node) : List Node :=
  docOrderVisitFuel w (stackWeight w s) s

/-- The document-order traversal of `document_order_first`, started from the
stack holding the given document's root. -/
def documentOrder (w : World) (d : Nat) : List Node :=
  docOrderVisit w [Node.root d]

/-- Path `q` lies at or below path `p` in the tree. -/
def underPath (p q : List Nat) : Prop := ∃ r, q = p ++ r

/-- The paths `p ++ [k]`, `p ++ [k+1]`, … resolve to the members of `cs`:
the relation between a parent's resolved child list and the paths of its
child entities. -/
def childPathsOk (forest : List XNode) (p : List Nat) (k : Nat) (cs : List XNode) : Prop :=
  ∀ i c, cs.get? i = some c → findNode forest (p ++ [k + i]) = some c

/-- Index assigned to a node by a traversal: the position of its first (in
fact only, the traversal visits each node once) occurrence in the visit
list.  Models lookup in the `order` hash map; `none` models the missing-key
panic of `order[n]`. -/
def orderIndex : List Node → Node → Option Nat
  | [], _ => none
  | m :: rest, n => if m = n then some 0 else (orderIndex rest n).map (· + 1)

/-- The node set of `nodeset.rs`: an insertion-ordered sequence of nodes,
duplicates permitted. -/
structure Nodeset where
  nodes : List Node
deriving DecidableEq

/-- `Nodeset::new`: the empty set. -/
def Nodeset.new : Nodeset := ⟨[]⟩

/-- `Nodeset::add`: push one node at the end. -/
def Nodeset.add (s : Nodeset) (n : Node) : Nodeset := ⟨s.nodes ++ [n]⟩

/-- `Nodeset::add_nodeset`: `self.nodes.push_all(&other.nodes)` — append all
of the other set's members after the current ones; the other set is read,
not consumed. -/
def Nodeset.add_nodeset (s other : Nodeset) : Nodeset := ⟨s.nodes ++ other.nodes⟩

/-- `Nodeset::size`. -/
def Nodeset.size (s : Nodeset) : Nat := s.nodes.length

/-- The sequence produced by `Nodeset::iter` (insertion order). -/
def Nodeset.iterList (s : Nodeset) : List Node := s.nodes

/-- Look up the recorded index of every member, in member order (the
evaluations of `order[n]` inside `min_by`); `none` models the panic raised
by the first member that was never assigned an index. -/
def keyNodes (ord : List Node) : List Node → Option (List (Nat × Node))
  | [] => some []
  | n :: rest =>
    match orderIndex ord n, keyNodes ord rest with
    | some i, some ks => some ((i, n) :: ks)
    | _, _ => none

/-- One folding step of `Iterator::min_by` keyed on the recorded index:
keep the incumbent unless the new key is strictly smaller (so the first of
two equal keys wins). -/
def minByStep : Option (Nat × Node) → Nat × Node → Option (Nat × Node)
  | none, q => some q
  | some acc, q => if q.1 < acc.1 then some q else some acc

/-- `Nodeset::document_order_first`.  An empty set returns `some none`
(Rust `None`).  Otherwise the preorder traversal of the document of the
FIRST member is built, every member's index is looked up (a member that was
never indexed makes the whole computation abort, modelled by the outer
`none`), and the member with the minimum index is returned. -/
def Nodeset.document_order_first (w : World) (s : Nodeset) : Option (Option Node) :=
  match s.nodes.head? with
  | none => some none
  | some n0 =>
    match keyNodes (documentOrder w n0.docId) s.nodes with
    | none => none
    | some ks => some ((ks.foldl minByStep none).map Prod.snd)

/-- The text of a text entity (`Text::text`); references that do not
resolve are unrepresentable in the source and default to the empty
string. -/
def textAt (w : World) (d : Nat) (p : List Nat) : String :=
  match findNode (w.doc d).rootChildren p with
  | some (.text s) => s
  | _ => ""

/-- The text of a comment entity (`Comment::text`). -/
def commentTextAt (w : World) (d : Nat) (p : List Nat) : String :=
  match findNode (w.doc d).rootChildren p with
  | some (.comment s) => s
  | _ => ""

/-- The target of a processing-instruction entity
(`ProcessingInstruction::target`). -/
def piTargetAt (w : World) (d : Nat) (p : List Nat) : String :=
  match findNode (w.doc d).rootChildren p with
  | some (.pi t _) => t
  | _ => ""

/-- The optional value of a processing-instruction entity
(`ProcessingInstruction::value`). -/
def piValueAt (w : World) (d : Nat) (p : List Nat) : Option String :=
  match findNode (w.doc d).rootChildren p with
  | some (.pi _ v) => v
  | _ => none

/-- Default attribute data for references that do not resolve
(unrepresentable in the source). -/
def defaultAttributeData : AttributeData := ⟨⟨none, ""⟩, "", none⟩

/-- The stored data of an attribute entity (name, value, hint). -/
def attrDataAt (w : World) (d : Nat) (p : List Nat) (i : Nat) : AttributeData :=
  match findNode (w.doc d).rootChildren p with
  | some x => (x.attrList.get? i).getD defaultAttributeData
  | none => defaultAttributeData

/-- The recursion of `document_order_text_nodes`: walk a worklist of
children; a text child contributes its text, an element child contributes
the value of the recursion over its own children, every other child
contributes nothing.  The `fuel` argument only bounds the recursion depth
so that the definition is structural; `stackWeight` fuel is always
sufficient (`textNodesFuel_congr` below). -/
def textNodesFuel (w : World) : Nat → List Node → String
  | _, [] => ""
  | 0, _ :: _ => ""
  | fuel + 1, c :: rest =>
    (match c with
     | Node.element dd pp => textNodesFuel w fuel (Node.children w (Node.element dd pp))
     | Node.text dd pp => textAt w dd pp
     | _ => "") ++ textNodesFuel w fuel rest

/-- The text-descendant walk over a worklist, run to completion
(`stackWeight` fuel is always enough, `textVisit_cons` below). -/
def textVisit (w : World) (s : List Node) : String :=
  textNodesFuel w (stackWeight w s) s

/-- `document_order_text_nodes` of `Node::string_value`: concatenate the
text of every text descendant of the given node, in document order,
recursing only into element children. -/
def document_order_text_nodes (w : World) (n : Node) : String :=
  textVisit w (Node.children w n)

/-- `Node::string_value`: Root and Element concatenate their text
descendants; an attribute yields its value; a processing instruction its
value or the empty string; a comment or text node its literal text; a
namespace node its bound URI. -/
def Node.string_value (w : World) : Node → String
  | .root d => document_order_text_nodes w (.root d)
  | .element d p => document_order_text_nodes w (.element d p)
  | .attribute d p i => (attrDataAt w d p i).value
  | .processingInstruction d p => (piValueAt w d p).getD ""
  | .comment d p => commentTextAt w d p
  | .text d p => textAt w d p
  | .nsNode _ _ _ uri => uri

/-- The qualified name of an element entity (`Element::name`). -/
def XNode.elemName : XNode → QName
  | .element nm _ _ _ _ => nm
  | _ => ⟨none, ""⟩

/-- The preferred-prefix hint of an element entity
(`Element::preferred_prefix`). -/
def XNode.elemHint : XNode → Option String
  | .element _ h _ _ _ => h
  | _ => none

/-- The namespace-prefix registrations of an element entity, as
(prefix, uri) pairs. -/
def XNode.elemRegs : XNode → List (String × String)
  | .element _ _ r _ _ => r
  | _ => []

/-- The prefix-resolution service of the document collaborator
(`Element::prefix_for_namespace_uri`), as the spec describes it (§4.1,
§6): a prefix the element has registered for the URI, preferring the
caller's hint when the hint itself is registered for that URI. -/
def prefix_for_namespace_uri (x : XNode) (ns_uri : String) (preferred : Option String) :
    Option String :=
  match preferred with
  | some pref =>
    if (pref, ns_uri) ∈ x.elemRegs then some pref
    else (x.elemRegs.find? fun r => r.2 = ns_uri).map Prod.fst
  | none => (x.elemRegs.find? fun r => r.2 = ns_uri).map Prod.fst

/-- The helper `qname_prefixed_name` of `Node::prefixed_name`: render a
qualified name in the context of a resolution element; a name with a
namespace URI becomes `prefix:local` when a prefix resolves, and degrades
to the bare local part when none does or when the name has no URI. -/
def qname_prefixed_name (x : XNode) (name : QName) (preferred : Option String) : String :=
  match name.namespace_uri with
  | some ns_uri =>
    match prefix_for_namespace_uri x ns_uri preferred with
    | some pfx => pfx ++ ":" ++ name.local_part
    | none => name.local_part
  | none => name.local_part

/-- The parent lookup of an attribute entity (`Attribute::parent`): the
element its path denotes, if the path resolves to an element. -/
def attributeParent (w : World) (d : Nat) (p : List Nat) : Option XNode :=
  match findNode (w.doc d).rootChildren p with
  | some (.element nm h r a c) => some (.element nm h r a c)
  | _ => none

/-- Default element data for references that do not resolve
(unrepresentable in the source). -/
def defaultElementX : XNode := .element ⟨none, ""⟩ none [] [] []

/-- `Node::prefixed_name`.  Result `some r` is the Rust `Option<String>`
return value `r`; the outer `none` is the `expect` panic raised for an
attribute whose parent lookup fails. -/
def Node.prefixed_name (w : World) : Node → Option (Option String)
  | .root _ => some none
  | .element d p =>
    let x := (findNode (w.doc d).rootChildren p).getD defaultElementX
    some (some (qname_prefixed_name x x.elemName x.elemHint))
  | .attribute d p i =>
    match attributeParent w d p with
    | some e =>
      let a := (e.attrList.get? i).getD defaultAttributeData
      some (some (qname_prefixed_name e a.name a.prefHint))
    | none => none
  | .text _ _ => some none
  | .comment _ _ => some none
  | .processingInstruction d p => some (some (piTargetAt w d p))
  | .nsNode _ _ pfx _ => some (some pfx)

mutual

/-- Recursive restatement of the document-order traversal, used to express
its structure: a node is visited first, an element's attributes come
immediately after it (the stack pops them in reverse stored order) and
before any of its children, and the children follow recursively in
order. -/
def preorderX (d : Nat) (p : List Nat) : XNode → List Node
  | .element _ _ _ attrs cs =>
    Node.element d p ::
      ((attrNodesFrom d p 0 attrs).reverse ++ preorderList d p 0 cs)
  | .text _ => [Node.text d p]
  | .comment _ => [Node.comment d p]
  | .pi .. => [Node.processingInstruction d p]

/-- Preorder of a forest of sibling subtrees whose first member has child
index `k`. -/
def preorderList (d : Nat) (p : List Nat) (k : Nat) : List XNode → List Node
  | [] => []
  | c :: cs => preorderX d (p ++ [k]) c ++ preorderList d p (k + 1) cs

end

/-- Recursive preorder of a whole document: the root first, then its
children in order. -/
def preorderDoc (d : Nat) (doc : Document) : List Node :=
  Node.root d :: preorderList d [] 0 doc.rootChildren

mutual

/-- Specification-side collection of text runs (§4.3): the runs a node
contributes when visited as a child — a text node contributes its run, an
element contributes the runs of its own children recursively, every other
kind is skipped without recursing. -/
def specTextRuns : XNode → List String
  | .element _ _ _ _ cs => specTextRunsList cs
  | .text s => [s]
  | .comment _ => []
  | .pi .. => []

/-- Specification-side text runs of a list of children, in document
order. -/
def specTextRunsList : List XNode → List String
  | [] => []
  | c :: cs => specTextRuns c ++ specTextRunsList cs

end

/-- Concatenation of text runs with no separators inserted (§4.3). -/
def concatRuns : List String → String
  | [] => ""
  | s :: rest => s ++ concatRuns rest

/-- Specification-side string value (§4.3), written from the spec's
per-kind rules: Root and Element concatenate, in document order and with
no separators, the text of every text descendant reached by recursing only
into element children; the remaining kinds read their literal data. -/
def specStringValue (w : World) : Node → String
  | .root d => concatRuns (specTextRunsList (w.doc d).rootChildren)
  | .element d p =>
    match findNode (w.doc d).rootChildren p with
    | some (XNode.element _ _ _ _ cs) => concatRuns (specTextRunsList cs)
    | _ => ""
  | .attribute d p i => (attrDataAt w d p i).value
  | .processingInstruction d p =>
    match piValueAt w d p with
    | some v => v
    | none => ""
  | .comment d p => commentTextAt w d p
  | .text d p => textAt w d p
  | .nsNode _ _ _ uri => uri

/-- Specification-side candidate prefixes: every prefix the context element
has bound to the given URI, in registration order. -/
def specCandidates (x : XNode) (ns_uri : String) : List String :=
  (x.elemRegs.filter fun r => r.2 = ns_uri).map Prod.fst

/-- Specification-side name rendering (§4.1): with a namespace URI, use the
hint when it is itself bound to that URI, otherwise the first bound
prefix, and fall back to the bare local name when no prefix is bound; with
no URI, the bare local name. -/
def specResolvedName (x : XNode) (name : QName) (hint : Option String) : String :=
  match name.namespace_uri with
  | none => name.local_part
  | some u =>
    match hint with
    | some h =>
      if h ∈ specCandidates x u then h ++ ":" ++ name.local_part
      else
        match specCandidates x u with
        | c :: _ => c ++ ":" ++ name.local_part
        | [] => name.local_part
    | none =>
      match specCandidates x u with
      | c :: _ => c ++ ":" ++ name.local_part
      | [] => name.local_part

/-- Specification-side prefixed name (§4.1): Root, Text, Comment have none;
an element resolves its own name in its own context with its own hint; an
attribute resolves its name in its parent element's context (aborting,
outer `none`, when it has no parent element); a processing instruction
yields its target verbatim; a namespace node its declared prefix
verbatim. -/
def specPrefixedName (w : World) : Node → Option (Option String)
  | .root _ => some none
  | .text _ _ => some none
  | .comment _ _ => some none
  | .element d p =>
    match findNode (w.doc d).rootChildren p with
    | some x => some (some (specResolvedName x x.elemName x.elemHint))
    | none => some (some "")
  | .attribute d p i =>
    match findNode (w.doc d).rootChildren p with
    | some (.element nm h r a c) =>
      let ad := ((XNode.element nm h r a c).attrList.get? i).getD defaultAttributeData
      some (some (specResolvedName (.element nm h r a c) ad.name ad.prefHint))
    | _ => none
  | .processingInstruction d p => some (some (piTargetAt w d p))
  | .nsNode _ _ pfx _ => some (some pfx)

/-! ### Concrete fixtures used by examples, witnesses and counterexamples -/

/-- Document with two comments appended to the root, in order "1" then
"2". -/
def exDocComments : Document := ⟨[XNode.comment "1", XNode.comment "2"]⟩

/-- Document with one element holding one attribute and one element
child. -/
def exDocAttrChild : Document :=
  ⟨[XNode.element ⟨none, "parent"⟩ none [] [⟨⟨none, "a"⟩, "v", none⟩]
      [XNode.element ⟨none, "child"⟩ none [] [] []]]⟩

/-- Document with one element holding two attributes, stored "a0" then
"a1". -/
def exDocTwoAttrs : Document :=
  ⟨[XNode.element ⟨none, "e"⟩ none []
      [⟨⟨none, "a0"⟩, "v0", none⟩, ⟨⟨none, "a1"⟩, "v1", none⟩] []]⟩

/-- Document whose first element contains text "Presenting: ", a child
element containing text "Earth", then text "!"; its second and third root
children are processing instructions without and with a value. -/
def exDocStringValue : Document :=
  ⟨[XNode.element ⟨none, "hello"⟩ none [] []
      [XNode.text "Presenting: ",
        XNode.element ⟨none, "world"⟩ none [] [] [XNode.text "Earth"],
        XNode.text "!"],
    XNode.pi "hello" none,
    XNode.pi "hello" (some "world")]⟩

/-- Document for name resolution: an element named ("uri", "wow") with
prefix "prefix" registered for "uri", a sibling element with no
registration, and an element carrying an attribute whose own hint differs
from its parent's hint. -/
def exDocNames : Document :=
  ⟨[XNode.element ⟨some "uri", "wow"⟩ none [("prefix", "uri")] [] [],
    XNode.element ⟨some "uri", "wow"⟩ none [] [] [],
    XNode.element ⟨none, "element"⟩ (some "p1") [("p1", "u"), ("p2", "u")]
      [⟨⟨some "u", "attr"⟩, "value", some "p2"⟩] []]⟩

/-- A world holding the five fixture documents, ids 0 to 4. -/
def exWorld : World :=
  [exDocComments, exDocAttrChild, exDocTwoAttrs, exDocStringValue, exDocNames]

example :
    documentOrder exWorld 0 =
      [Node.root 0, Node.comment 0 [0], Node.comment 0 [1]] := by decide

example :
    documentOrder exWorld 2 =
      [Node.root 2, Node.element 2 [0], Node.attribute 2 [0] 1,
        Node.attribute 2 [0] 0] := by decide

example :
    Nodeset.document_order_first exWorld ⟨[Node.comment 0 [1], Node.comment 0 [0]]⟩ =
      some (some (Node.comment 0 [0])) := by decide

example :
    Nodeset.document_order_first exWorld ⟨[Node.element 1 [0, 0], Node.attribute 1 [0] 0]⟩ =
      some (some (Node.attribute 1 [0] 0)) := by decide

example :
    Node.string_value exWorld (Node.element 3 [0]) = "Presenting: Earth!" := by decide

example :
    Node.prefixed_name exWorld (Node.element 4 [0]) = some (some "prefix:wow") := by decide

example :
    Node.prefixed_name exWorld (Node.attribute 4 [2] 0) = some (some "p2:attr") := by decide

/-! ### Sizes, weights and path resolution -/

theorem XNode.size_pos : ∀ x : XNode, 1 ≤ x.size := by
  intro x
  cases x <;> simp [XNode.size] <;> omega

theorem Node.weight_pos (w : World) : ∀ n : Node, 1 ≤ Node.weight w n := by
  intro n
  cases n
  case element d p =>
    cases h : findNode (w.doc d).rootChildren p with
    | none => simp [Node.weight, h]
    | some x =>
      simp only [Node.weight, h]
      exact XNode.size_pos x
  all_goals simp [Node.weight]

theorem stackWeight_nil (w : World) : stackWeight w [] = 0 := rfl

theorem stackWeight_cons (w : World) (n : Node) (s : List Node) :
    stackWeight w (n :: s) = Node.weight w n + stackWeight w s := by
  simp [stackWeight]

theorem stackWeight_append (w : World) (s t : List Node) :
    stackWeight w (s ++ t) = stackWeight w s + stackWeight w t := by
  simp [stackWeight]

theorem stackWeight_reverse (w : World) (s : List Node) :
    stackWeight w s.reverse = stackWeight w s := by
  simp [stackWeight, List.sum_reverse]

theorem findNode_nil (forest : List XNode) : findNode forest [] = none := rfl

theorem findNode_single (forest : List XNode) (i : Nat) :
    findNode forest [i] = forest.get? i := rfl

theorem findNode_ne_nil {forest : List XNode} {p : List Nat} {x : XNode}
    (h : findNode forest p = some x) : p ≠ [] := by
  intro hp
  subst hp
  simp [findNode] at h

theorem findNode_snoc (j : Nat) : ∀ (p : List Nat) (forest : List XNode), p ≠ [] →
    findNode forest (p ++ [j]) = (findNode forest p).bind fun x => x.childList.get? j := by
  intro p
  induction p with
  | nil => intro forest h; exact absurd rfl h
  | cons i rest ih =>
    intro forest _
    cases rest with
    | nil =>
      show findNode forest [i, j] = _
      rw [show findNode forest [i, j] =
        (forest.get? i).bind (fun x => findNode x.childList [j]) from rfl]
      rw [findNode_single]
      cases forest.get? i <;> rfl
    | cons j2 rest2 =>
      have key1 : findNode forest ((i :: j2 :: rest2) ++ [j]) =
          (forest.get? i).bind fun x => findNode x.childList ((j2 :: rest2) ++ [j]) := rfl
      have key2 : findNode forest (i :: j2 :: rest2) =
          (forest.get? i).bind fun x => findNode x.childList (j2 :: rest2) := rfl
      rw [key1, key2]
      cases forest.get? i with
      | none => rfl
      | some y => simpa using ih y.childList (by simp)

theorem findNode_child {forest : List XNode} {p : List Nat} {x c : XNode} {j : Nat}
    (h1 : findNode forest p = some x) (h2 : x.childList.get? j = some c) :
    findNode forest (p ++ [j]) = some c := by
  rw [findNode_snoc j p forest (findNode_ne_nil h1), h1]
  simpa using h2

theorem childPathsOk_root (w : World) (d : Nat) :
    childPathsOk (w.doc d).rootChildren [] 0 (w.doc d).rootChildren := by
  intro i c h
  simpa [findNode_single] using h

theorem childPathsOk_elem {w : World} {d : Nat} {p : List Nat} {x : XNode}
    (h : findNode (w.doc d).rootChildren p = some x) :
    childPathsOk (w.doc d).rootChildren p 0 x.childList := by
  intro i c hc
  simpa using findNode_child h hc

theorem childPathsOk.head {forest : List XNode} {p : List Nat} {k : Nat} {c : XNode}
    {cs : List XNode} (h : childPathsOk forest p k (c :: cs)) :
    findNode forest (p ++ [k]) = some c := by
  simpa using h 0 c rfl

theorem childPathsOk.tail {forest : List XNode} {p : List Nat} {k : Nat} {c : XNode}
    {cs : List XNode} (h : childPathsOk forest p k (c :: cs)) :
    childPathsOk forest p (k + 1) cs := by
  intro i c2 hc
  have h2 := h (i + 1) c2 (by simpa using hc)
  have harith : k + (i + 1) = k + 1 + i := by omega
  rwa [harith] at h2

theorem weight_toNodeAt (w : World) (d : Nat) (p : List Nat) (c : XNode)
    (h : findNode (w.doc d).rootChildren p = some c) :
    Node.weight w (toNodeAt d p c) = c.size := by
  cases c <;> simp [toNodeAt, Node.weight, XNode.size, h]

theorem stackWeight_attrNodesFrom (w : World) :
    ∀ (attrs : List AttributeData) (d : Nat) (p : List Nat) (k : Nat),
    stackWeight w (attrNodesFrom d p k attrs) = attrs.length := by
  intro attrs
  induction attrs with
  | nil => intro d p k; rfl
  | cons a rest ih =>
    intro d p k
    rw [attrNodesFrom, stackWeight_cons, ih]
    simp [Node.weight]
    omega

theorem stackWeight_childNodesFrom (w : World) (d : Nat) :
    ∀ (cs : List XNode) (p : List Nat) (k : Nat),
    childPathsOk (w.doc d).rootChildren p k cs →
    stackWeight w (childNodesFrom d p k cs) = XNode.sizeList cs := by
  intro cs
  induction cs with
  | nil => intro p k _; rfl
  | cons c rest ih =>
    intro p k h
    rw [childNodesFrom, stackWeight_cons, weight_toNodeAt w d _ c h.head,
      ih p (k + 1) h.tail, XNode.sizeList]

theorem pushed_weight_le (w : World) (n : Node) :
    stackWeight w ((Node.attributeNodes w n).reverse ++ Node.children w n) + 1 ≤
      Node.weight w n := by
  cases n
  case root d =>
    rw [show Node.attributeNodes w (Node.root d) = [] from rfl]
    rw [show Node.children w (Node.root d) =
      childNodesFrom d [] 0 (w.doc d).rootChildren from rfl]
    rw [List.reverse_nil, List.nil_append,
      stackWeight_childNodesFrom w d _ [] 0 (childPathsOk_root w d)]
    simp [Node.weight]
    omega
  case element d p =>
    cases h : findNode (w.doc d).rootChildren p with
    | none =>
      simp only [Node.attributeNodes, Node.children, Node.weight, h]
      simp [stackWeight]
    | some x =>
      simp only [Node.attributeNodes, Node.children, Node.weight, h]
      rw [stackWeight_append, stackWeight_reverse, stackWeight_attrNodesFrom,
        stackWeight_childNodesFrom w d _ p 0 (childPathsOk_elem h)]
      cases x <;>
        simp [XNode.attrList, XNode.childList, XNode.size, XNode.sizeList] <;> omega
  all_goals simp [Node.attributeNodes, Node.children, Node.weight, stackWeight]

theorem pushed_stack_le (w : World) (n : Node) (rest : List Node) :
    stackWeight w ((Node.attributeNodes w n).reverse ++ Node.children w n ++ rest) + 1 ≤
      stackWeight w (n :: rest) := by
  have h := pushed_weight_le w n
  rw [stackWeight_append] at h ⊢
  rw [stackWeight_append, stackWeight_cons]
  omega

/-! ### The traversal satisfies the loop recurrence -/

theorem docOrderVisitFuel_congr (w : World) : ∀ (f g : Nat) (s : List Node),
    stackWeight w s ≤ f → stackWeight w s ≤ g →
    docOrderVisitFuel w f s = docOrderVisitFuel w g s := by
  intro f
  induction f with
  | zero =>
    intro g s hf _
    cases s with
    | nil => cases g <;> rfl
    | cons n rest =>
      exfalso
      have := Node.weight_pos w n
      rw [stackWeight_cons] at hf
      omega
  | succ f ih =>
    intro g s hf hg
    cases s with
    | nil => cases g <;> rfl
    | cons n rest =>
      cases g with
      | zero =>
        exfalso
        have := Node.weight_pos w n
        rw [stackWeight_cons] at hg
        omega
      | succ g =>
        simp only [docOrderVisitFuel]
        congr 1
        have hp := pushed_stack_le w n rest
        exact ih g _ (by omega) (by omega)

theorem docOrderVisit_nil (w : World) : docOrderVisit w [] = [] := rfl

theorem docOrderVisit_cons (w : World) (n : Node) (rest : List Node) :
    docOrderVisit w (n :: rest) =
      n :: docOrderVisit w ((Node.attributeNodes w n).reverse ++ Node.children w n ++ rest) := by
  have h1 : 0 < stackWeight w (n :: rest) := by
    have := Node.weight_pos w n
    rw [stackWeight_cons]
    omega
  obtain ⟨m, hm⟩ : ∃ m, stackWeight w (n :: rest) = m + 1 :=
    ⟨_, (Nat.succ_pred_eq_of_pos h1).symm⟩
  show docOrderVisitFuel w (stackWeight w (n :: rest)) (n :: rest) = _
  rw [hm]
  simp only [docOrderVisitFuel]
  congr 1
  have hp := pushed_stack_le w n rest
  exact docOrderVisitFuel_congr w m _ _ (by omega) le_rfl

theorem docOrderVisit_append_bounded (w : World) :
    ∀ (bound : Nat) (s t : List Node), stackWeight w s ≤ bound →
    docOrderVisit w (s ++ t) = docOrderVisit w s ++ docOrderVisit w t := by
  intro bound
  induction bound with
  | zero =>
    intro s t h
    cases s with
    | nil => simp [docOrderVisit_nil]
    | cons n rest =>
      exfalso
      have := Node.weight_pos w n
      rw [stackWeight_cons] at h
      omega
  | succ bound ih =>
    intro s t h
    cases s with
    | nil => simp [docOrderVisit_nil]
    | cons n rest =>
      rw [List.cons_append, docOrderVisit_cons, docOrderVisit_cons]
      rw [show (Node.attributeNodes w n).reverse ++ Node.children w n ++ (rest ++ t) =
        ((Node.attributeNodes w n).reverse ++ Node.children w n ++ rest) ++ t from by
          simp [List.append_assoc]]
      have hp := pushed_stack_le w n rest
      rw [ih _ t (by omega)]
      simp

theorem docOrderVisit_append (w : World) (s t : List Node) :
    docOrderVisit w (s ++ t) = docOrderVisit w s ++ docOrderVisit w t :=
  docOrderVisit_append_bounded w (stackWeight w s) s t le_rfl

theorem docOrderVisit_leaves (w : World) :
    ∀ s : List Node,
    (∀ n ∈ s, Node.attributeNodes w n = [] ∧ Node.children w n = []) →
    docOrderVisit w s = s := by
  intro s
  induction s with
  | nil => intro _; rfl
  | cons n rest ih =>
    intro h
    rw [docOrderVisit_cons]
    obtain ⟨h1, h2⟩ := h n (by simp)
    rw [h1, h2]
    simp only [List.reverse_nil, List.nil_append]
    rw [ih (fun m hm => h m (by simp [hm]))]

theorem mem_attrNodesFrom :
    ∀ (attrs : List AttributeData) (d : Nat) (p : List Nat) (k : Nat) (m : Node),
    m ∈ attrNodesFrom d p k attrs ↔ ∃ j, j < attrs.length ∧ m = Node.attribute d p (k + j) := by
  intro attrs
  induction attrs with
  | nil => intro d p k m; simp [attrNodesFrom]
  | cons a rest ih =>
    intro d p k m
    rw [attrNodesFrom]
    simp only [List.mem_cons, ih, List.length_cons]
    constructor
    · rintro (h | ⟨j, hj, hm⟩)
      · exact ⟨0, by omega, by simpa using h⟩
      · exact ⟨j + 1, by omega, by rw [hm]; congr 1; omega⟩
    · rintro ⟨j, hj, hm⟩
      cases j with
      | zero => left; simpa using hm
      | succ j => right; exact ⟨j, by omega, by rw [hm]; congr 1; omega⟩

theorem attrNodes_are_leaves (w : World) (d : Nat) (p : List Nat) (i : Nat) :
    Node.attributeNodes w (Node.attribute d p i) = [] ∧
      Node.children w (Node.attribute d p i) = [] := ⟨rfl, rfl⟩

theorem docOrderVisit_attr_reverse (w : World) (d : Nat) (p : List Nat) (k : Nat)
    (attrs : List AttributeData) :
    docOrderVisit w (attrNodesFrom d p k attrs).reverse = (attrNodesFrom d p k attrs).reverse := by
  apply docOrderVisit_leaves
  intro m hm
  rw [List.mem_reverse, mem_attrNodesFrom] at hm
  obtain ⟨j, _, rfl⟩ := hm
  exact attrNodes_are_leaves w d p (k + j)

/-! ### The traversal equals the recursive preorder -/

mutual

theorem docOrderVisit_preorderX (w : World) (d : Nat) :
    ∀ (x : XNode) (p : List Nat), findNode (w.doc d).rootChildren p = some x →
    docOrderVisit w [toNodeAt d p x] = preorderX d p x := by
  intro x p hx
  cases x with
  | element nm ph regs attrs cs =>
    rw [show toNodeAt d p (XNode.element nm ph regs attrs cs) = Node.element d p from rfl]
    rw [show ([Node.element d p] : List Node) = Node.element d p :: [] from rfl]
    rw [docOrderVisit_cons]
    rw [show Node.attributeNodes w (Node.element d p) = attrNodesFrom d p 0 attrs from by
      simp [Node.attributeNodes, hx, XNode.attrList]]
    rw [show Node.children w (Node.element d p) = childNodesFrom d p 0 cs from by
      simp [Node.children, hx, XNode.childList]]
    rw [List.append_nil, docOrderVisit_append, docOrderVisit_attr_reverse]
    rw [docOrderVisit_preorderList w d cs p 0 (by
      have := childPathsOk_elem hx
      simpa [XNode.childList] using this)]
    rw [preorderX]
  | text s =>
    rw [show toNodeAt d p (XNode.text s) = Node.text d p from rfl]
    rw [show ([Node.text d p] : List Node) = Node.text d p :: [] from rfl]
    rw [docOrderVisit_cons]
    rw [show Node.attributeNodes w (Node.text d p) = [] from rfl]
    rw [show Node.children w (Node.text d p) = [] from rfl]
    simp [docOrderVisit_nil, preorderX]
  | comment s =>
    rw [show toNodeAt d p (XNode.comment s) = Node.comment d p from rfl]
    rw [show ([Node.comment d p] : List Node) = Node.comment d p :: [] from rfl]
    rw [docOrderVisit_cons]
    rw [show Node.attributeNodes w (Node.comment d p) = [] from rfl]
    rw [show Node.children w (Node.comment d p) = [] from rfl]
    simp [docOrderVisit_nil, preorderX]
  | pi t v =>
    rw [show toNodeAt d p (XNode.pi t v) = Node.processingInstruction d p from rfl]
    rw [show ([Node.processingInstruction d p] : List Node) =
      Node.processingInstruction d p :: [] from rfl]
    rw [docOrderVisit_cons]
    rw [show Node.attributeNodes w (Node.processingInstruction d p) = [] from rfl]
    rw [show Node.children w (Node.processingInstruction d p) = [] from rfl]
    simp [docOrderVisit_nil, preorderX]

theorem docOrderVisit_preorderList (w : World) (d : Nat) :
    ∀ (cs : List XNode) (p : List Nat) (k : Nat),
    childPathsOk (w.doc d).rootChildren p k cs →
    docOrderVisit w (childNodesFrom d p k cs) = preorderList d p k cs := by
  intro cs p k h
  cases cs with
  | nil => rfl
  | cons c rest =>
    rw [childNodesFrom, preorderList]
    rw [show toNodeAt d (p ++ [k]) c :: childNodesFrom d p (k + 1) rest =
      [toNodeAt d (p ++ [k]) c] ++ childNodesFrom d p (k + 1) rest from rfl]
    rw [docOrderVisit_append]
    rw [docOrderVisit_preorderX w d c (p ++ [k]) h.head]
    rw [docOrderVisit_preorderList w d rest p (k + 1) h.tail]

end

theorem documentOrder_eq_preorderDoc (w : World) (d : Nat) :
    documentOrder w d = preorderDoc d (w.doc d) := by
  show docOrderVisit w [Node.root d] = _
  rw [show ([Node.root d] : List Node) = Node.root d :: [] from rfl]
  rw [docOrderVisit_cons]
  rw [show Node.attributeNodes w (Node.root d) = [] from rfl]
  rw [show Node.children w (Node.root d) =
    childNodesFrom d [] 0 (w.doc d).rootChildren from rfl]
  simp only [List.reverse_nil, List.nil_append, List.append_nil]
  rw [docOrderVisit_preorderList w d _ [] 0 (childPathsOk_root w d)]
  rfl

/-! ### Paths, membership and uniqueness in the preorder -/

theorem underPath_refl (p : List Nat) : underPath p p := ⟨[], by simp⟩

theorem underPath_extend {p q : List Nat} (k : Nat) (h : underPath (p ++ [k]) q) :
    underPath p q := by
  obtain ⟨r, hr⟩ := h
  exact ⟨[k] ++ r, by simp [hr]⟩

theorem underPath_get {p q : List Nat} {k : Nat} (h : underPath (p ++ [k]) q) :
    q.get? p.length = some k := by
  obtain ⟨r, hr⟩ := h
  subst hr
  rw [List.append_assoc, List.get?_append_right le_rfl]
  simp

theorem underPath_length {p q : List Nat} {k : Nat} (h : underPath (p ++ [k]) q) :
    p.length < q.length := by
  obtain ⟨r, hr⟩ := h
  subst hr
  simp

mutual

theorem mem_preorderX (d : Nat) :
    ∀ (x : XNode) (p : List Nat) (m : Node), m ∈ preorderX d p x →
    underPath p m.pathOf ∧ (∀ d2 q pfx uri, m ≠ Node.nsNode d2 q pfx uri) := by
  intro x p m hm
  cases x with
  | element nm ph regs attrs cs =>
    rw [preorderX] at hm
    rcases List.mem_cons.mp hm with h | h
    · subst h
      exact ⟨underPath_refl p, fun _ _ _ _ => by simp [Node.pathOf]⟩
    · rcases List.mem_append.mp h with h2 | h2
      · rw [List.mem_reverse, mem_attrNodesFrom] at h2
        obtain ⟨j, _, rfl⟩ := h2
        exact ⟨underPath_refl p, fun _ _ _ _ => by simp⟩
      · obtain ⟨i, _, _, hu, hns⟩ := mem_preorderList d cs p 0 m h2
        exact ⟨underPath_extend i hu, hns⟩
  | text s =>
    rw [preorderX] at hm
    rcases List.mem_singleton.mp hm with rfl
    exact ⟨underPath_refl p, fun _ _ _ _ => by simp⟩
  | comment s =>
    rw [preorderX] at hm
    rcases List.mem_singleton.mp hm with rfl
    exact ⟨underPath_refl p, fun _ _ _ _ => by simp⟩
  | pi t v =>
    rw [preorderX] at hm
    rcases List.mem_singleton.mp hm with rfl
    exact ⟨underPath_refl p, fun _ _ _ _ => by simp⟩

theorem mem_preorderList (d : Nat) :
    ∀ (cs : List XNode) (p : List Nat) (k : Nat) (m : Node), m ∈ preorderList d p k cs →
    ∃ i, k ≤ i ∧ i < k + cs.length ∧ underPath (p ++ [i]) m.pathOf ∧
      (∀ d2 q pfx uri, m ≠ Node.nsNode d2 q pfx uri) := by
  intro cs p k m hm
  cases cs with
  | nil => rw [preorderList] at hm; cases hm
  | cons c rest =>
    rw [preorderList] at hm
    rcases List.mem_append.mp hm with h | h
    · obtain ⟨hu, hns⟩ := mem_preorderX d c (p ++ [k]) m h
      exact ⟨k, le_rfl, by simp, hu, hns⟩
    · obtain ⟨i, hi1, hi2, hu, hns⟩ := mem_preorderList d rest p (k + 1) m h
      exact ⟨i, by omega, by simp at hi2 ⊢; omega, hu, hns⟩

end

theorem nodup_attrNodesFrom :
    ∀ (attrs : List AttributeData) (d : Nat) (p : List Nat) (k : Nat),
    (attrNodesFrom d p k attrs).Nodup := by
  intro attrs
  induction attrs with
  | nil => intro d p k; simp [attrNodesFrom]
  | cons a rest ih =>
    intro d p k
    rw [attrNodesFrom, List.nodup_cons]
    refine ⟨fun hmem => ?_, ih d p (k + 1)⟩
    rw [mem_attrNodesFrom] at hmem
    obtain ⟨j, _, heq⟩ := hmem
    have : k = k + 1 + j := by
      have := Node.attribute.injEq d p k d p (k + 1 + j) ▸ heq
      simpa using heq
    omega

theorem pathOf_mem_attrNodesFrom {d : Nat} {p : List Nat} {k : Nat}
    {attrs : List AttributeData} {m : Node} (hm : m ∈ attrNodesFrom d p k attrs) :
    m.pathOf = p := by
  rw [mem_attrNodesFrom] at hm
  obtain ⟨j, _, rfl⟩ := hm
  rfl

mutual

theorem nodup_preorderX (d : Nat) :
    ∀ (x : XNode) (p : List Nat), (preorderX d p x).Nodup := by
  intro x p
  cases x with
  | element nm ph regs attrs cs =>
    rw [preorderX, List.nodup_cons]
    constructor
    · intro hmem
      rcases List.mem_append.mp hmem with h | h
      · rw [List.mem_reverse, mem_attrNodesFrom] at h
        obtain ⟨j, _, hj⟩ := h
        cases hj
      · obtain ⟨i, _, _, hu, _⟩ := mem_preorderList d cs p 0 (Node.element d p) h
        have := underPath_length hu
        simp [Node.pathOf] at this
    · apply List.Nodup.append
      · exact List.nodup_reverse.mpr (nodup_attrNodesFrom attrs d p 0)
      · exact nodup_preorderList d cs p 0
      · intro m hm1 hm2
        rw [List.mem_reverse] at hm1
        have hp1 := pathOf_mem_attrNodesFrom hm1
        obtain ⟨i, _, _, hu, _⟩ := mem_preorderList d cs p 0 m hm2
        have hlen := underPath_length hu
        rw [hp1] at hlen
        omega
  | text s => rw [preorderX]; simp
  | comment s => rw [preorderX]; simp
  | pi t v => rw [preorderX]; simp

theorem nodup_preorderList (d : Nat) :
    ∀ (cs : List XNode) (p : List Nat) (k : Nat), (preorderList d p k cs).Nodup := by
  intro cs p k
  cases cs with
  | nil => rw [preorderList]; simp
  | cons c rest =>
    rw [preorderList]
    apply List.Nodup.append
    · exact nodup_preorderX d c (p ++ [k])
    · exact nodup_preorderList d rest p (k + 1)
    · intro m hm1 hm2
      obtain ⟨hu1, _⟩ := mem_preorderX d c (p ++ [k]) m hm1
      obtain ⟨i, hi1, _, hu2, _⟩ := mem_preorderList d rest p (k + 1) m hm2
      have g1 := underPath_get hu1
      have g2 := underPath_get hu2
      rw [g1] at g2
      have : k = i := by simpa using g2
      omega

end

theorem nodup_preorderDoc (d : Nat) (doc : Document) : (preorderDoc d doc).Nodup := by
  rw [preorderDoc, List.nodup_cons]
  constructor
  · intro hmem
    obtain ⟨i, _, _, hu, _⟩ := mem_preorderList d doc.rootChildren [] 0 (Node.root d) hmem
    have := underPath_length hu
    simp [Node.pathOf] at this
  · exact nodup_preorderList d doc.rootChildren [] 0

theorem nodup_documentOrder (w : World) (d : Nat) : (documentOrder w d).Nodup := by
  rw [documentOrder_eq_preorderDoc]
  exact nodup_preorderDoc d (w.doc d)

theorem nsNode_not_mem_documentOrder (w : World) (d d2 : Nat) (q : List Nat)
    (pfx uri : String) : Node.nsNode d2 q pfx uri ∉ documentOrder w d := by
  rw [documentOrder_eq_preorderDoc, preorderDoc]
  intro hmem
  rcases List.mem_cons.mp hmem with h | h
  · cases h
  · obtain ⟨i, _, _, _, hns⟩ := mem_preorderList d (w.doc d).rootChildren [] 0 _ h
    exact hns d2 q pfx uri rfl

/-! ### Properties of the index lookup -/

theorem orderIndex_isSome_iff_mem : ∀ (l : List Node) (n : Node),
    (orderIndex l n).isSome ↔ n ∈ l := by
  intro l n
  induction l with
  | nil => simp [orderIndex]
  | cons m rest ih =>
    rw [orderIndex]
    by_cases h : m = n
    · subst h; simp
    · rw [if_neg h]
      have hsame : (Option.map (fun x => x + 1) (orderIndex rest n)).isSome =
          (orderIndex rest n).isSome := by
        cases orderIndex rest n <;> rfl
      rw [hsame, ih, List.mem_cons]
      constructor
      · intro hmem; right; exact hmem
      · rintro (rfl | hmem)
        · exact absurd rfl h
        · exact hmem

theorem orderIndex_none_iff_not_mem (l : List Node) (n : Node) :
    orderIndex l n = none ↔ n ∉ l := by
  rw [← orderIndex_isSome_iff_mem]
  cases orderIndex l n <;> simp

theorem orderIndex_cons_self (l : List Node) (n : Node) :
    orderIndex (n :: l) n = some 0 := by
  rw [orderIndex]
  simp

theorem orderIndex_append_of_not_mem : ∀ (A B : List Node) (n : Node), n ∉ A →
    orderIndex (A ++ B) n = (orderIndex B n).map (· + A.length) := by
  intro A
  induction A with
  | nil => intro B n _; simp
  | cons m rest ih =>
    intro B n hn
    have hmn : m ≠ n := fun h => hn (by simp [h])
    rw [List.cons_append, orderIndex, if_neg hmn, ih B n (fun h => hn (by simp [h]))]
    cases orderIndex B n <;> simp
    omega

theorem orderIndex_of_get? : ∀ (l : List Node) (j : Nat) (n : Node),
    l.Nodup → l.get? j = some n → orderIndex l n = some j := by
  intro l
  induction l with
  | nil => intro j n _ h; simp at h
  | cons m rest ih =>
    intro j n hnd h
    rw [List.nodup_cons] at hnd
    cases j with
    | zero =>
      rw [List.get?_cons_zero] at h
      cases h
      exact orderIndex_cons_self rest m
    | succ j =>
      rw [List.get?_cons_succ] at h
      have hmem : n ∈ rest := List.get?_mem h
      have hmn : m ≠ n := fun he => hnd.1 (he ▸ hmem)
      rw [orderIndex, if_neg hmn, ih j n hnd.2 h]
      rfl

theorem orderIndex_get? : ∀ (l : List Node) (n : Node) (j : Nat),
    orderIndex l n = some j → l.get? j = some n := by
  intro l
  induction l with
  | nil => intro n j h; simp [orderIndex] at h
  | cons m rest ih =>
    intro n j h
    rw [orderIndex] at h
    by_cases hmn : m = n
    · rw [if_pos hmn] at h
      cases h
      simp [hmn]
    · rw [if_neg hmn] at h
      cases hj : orderIndex rest n with
      | none => rw [hj] at h; simp at h
      | some j2 =>
        rw [hj] at h
        simp at h
        subst h
        rw [List.get?_cons_succ]
        exact ih n j2 hj

/-! ### The minimum-by-index fold -/

theorem foldl_minByStep_isSome :
    ∀ (ks : List (Nat × Node)) (acc : Option (Nat × Node)),
    (acc.isSome ∨ ks ≠ []) → (ks.foldl minByStep acc).isSome := by
  intro ks
  induction ks with
  | nil =>
    intro acc h
    rcases h with h | h
    · simpa using h
    · exact absurd rfl h
  | cons q rest ih =>
    intro acc h
    rw [List.foldl_cons]
    apply ih
    left
    cases acc with
    | none => simp [minByStep]
    | some a =>
      simp only [minByStep]
      split <;> simp

theorem foldl_minByStep_spec :
    ∀ (ks : List (Nat × Node)) (acc : Option (Nat × Node)) (r : Nat × Node),
    ks.foldl minByStep acc = some r →
    (r ∈ ks ∨ acc = some r) ∧ (∀ q ∈ ks, r.1 ≤ q.1) ∧
      (∀ a, acc = some a → r.1 ≤ a.1) := by
  intro ks
  induction ks with
  | nil =>
    intro acc r h
    simp only [List.foldl_nil] at h
    refine ⟨Or.inr h, by simp, ?_⟩
    intro a ha
    rw [h] at ha
    cases ha
    exact le_rfl
  | cons q rest ih =>
    intro acc r h
    rw [List.foldl_cons] at h
    obtain ⟨hmem, hmin, hacc⟩ := ih (minByStep acc q) r h
    refine ⟨?_, ?_, ?_⟩
    · rcases hmem with hm | hm
      · exact Or.inl (List.mem_cons_of_mem q hm)
      · cases acc with
        | none =>
          rw [minByStep] at hm
          cases hm
          exact Or.inl (List.mem_cons_self q rest)
        | some a =>
          rw [minByStep] at hm
          by_cases hlt : q.1 < a.1
          · rw [if_pos hlt] at hm
            cases hm
            exact Or.inl (List.mem_cons_self q rest)
          · rw [if_neg hlt] at hm
            cases hm
            exact Or.inr rfl
    · intro q2 hq2
      rcases List.mem_cons.mp hq2 with rfl | hmm
      · cases acc with
        | none => exact hacc q2 rfl
        | some a =>
          by_cases hlt : q2.1 < a.1
          · exact hacc q2 (by rw [minByStep, if_pos hlt])
          · have := hacc a (by rw [minByStep, if_neg hlt])
            omega
      · exact hmin q2 hmm
    · intro a ha
      subst ha
      by_cases hlt : q.1 < a.1
      · have := hacc q (by rw [minByStep, if_pos hlt])
        omega
      · exact hacc a (by rw [minByStep, if_neg hlt])

/-! ### Behaviour of the member-index lookup pass -/

theorem keyNodes_some_of_mem :
    ∀ (l : List Node) (ord : List Node), (∀ n ∈ l, n ∈ ord) →
    ∃ ks, keyNodes ord l = some ks := by
  intro l ord
  induction l with
  | nil => intro _; exact ⟨[], rfl⟩
  | cons n rest ih =>
    intro h
    obtain ⟨ks, hks⟩ := ih (fun m hm => h m (by simp [hm]))
    have hn : n ∈ ord := h n (by simp)
    rw [← orderIndex_isSome_iff_mem] at hn
    obtain ⟨i, hi⟩ := Option.isSome_iff_exists.mp hn
    refine ⟨(i, n) :: ks, ?_⟩
    rw [keyNodes, hi, hks]

theorem keyNodes_none_of :
    ∀ (l : List Node) (ord : List Node) (n : Node), n ∈ l →
    orderIndex ord n = none → keyNodes ord l = none := by
  intro l ord n
  induction l with
  | nil => intro h _; cases h
  | cons m rest ih =>
    intro hmem hnone
    rcases List.mem_cons.mp hmem with rfl | hmm
    · rw [keyNodes, hnone]
    · rw [keyNodes, ih hmm hnone]
      cases orderIndex ord m <;> rfl

theorem keyNodes_pairs :
    ∀ (l : List Node) (ord : List Node) (ks : List (Nat × Node)),
    keyNodes ord l = some ks →
    ∀ pr ∈ ks, orderIndex ord pr.2 = some pr.1 ∧ pr.2 ∈ l := by
  intro l ord
  induction l with
  | nil =>
    intro ks h pr hpr
    rw [keyNodes] at h
    cases h
    cases hpr
  | cons n rest ih =>
    intro ks h pr hpr
    rw [keyNodes] at h
    cases h1 : orderIndex ord n with
    | none => rw [h1] at h; cases keyNodes ord rest <;> simp at h
    | some i =>
      cases h2 : keyNodes ord rest with
      | none => rw [h1, h2] at h; simp at h
      | some ks0 =>
        rw [h1, h2] at h
        cases h
        rcases List.mem_cons.mp hpr with rfl | hmm
        · exact ⟨h1, by simp⟩
        · obtain ⟨ha, hb⟩ := ih ks0 h2 pr hmm
          exact ⟨ha, by simp [hb]⟩

theorem keyNodes_exists_pair :
    ∀ (l : List Node) (ord : List Node) (ks : List (Nat × Node)),
    keyNodes ord l = some ks →
    ∀ n ∈ l, ∃ i, (i, n) ∈ ks ∧ orderIndex ord n = some i := by
  intro l ord
  induction l with
  | nil => intro ks _ n hn; cases hn
  | cons m rest ih =>
    intro ks h n hn
    rw [keyNodes] at h
    cases h1 : orderIndex ord m with
    | none => rw [h1] at h; cases keyNodes ord rest <;> simp at h
    | some i =>
      cases h2 : keyNodes ord rest with
      | none => rw [h1, h2] at h; simp at h
      | some ks0 =>
        rw [h1, h2] at h
        cases h
        rcases List.mem_cons.mp hn with rfl | hmm
        · exact ⟨i, by simp, h1⟩
        · obtain ⟨j, hj1, hj2⟩ := ih ks0 h2 n hmm
          exact ⟨j, by simp [hj1], hj2⟩

/-! ### Behaviour of `document_order_first` -/

theorem dof_empty (w : World) (s : Nodeset) (h : s.nodes = []) :
    s.document_order_first w = some none := by
  simp [Nodeset.document_order_first, h]

theorem dof_panic (w : World) (s : Nodeset) (n0 : Node) (rest : List Node) (n : Node)
    (hs : s.nodes = n0 :: rest) (hn : n ∈ s.nodes)
    (hidx : orderIndex (documentOrder w n0.docId) n = none) :
    s.document_order_first w = none := by
  have hk := keyNodes_none_of s.nodes (documentOrder w n0.docId) n hn hidx
  rw [hs] at hk
  simp [Nodeset.document_order_first, hs, hk]

theorem dof_success (w : World) (s : Nodeset) (n0 : Node) (rest : List Node)
    (hs : s.nodes = n0 :: rest)
    (hmem : ∀ n ∈ s.nodes, n ∈ documentOrder w n0.docId) :
    ∃ m, s.document_order_first w = some (some m) ∧ m ∈ s.nodes ∧
      ∀ n ∈ s.nodes, ∀ i j, orderIndex (documentOrder w n0.docId) m = some i →
        orderIndex (documentOrder w n0.docId) n = some j → i ≤ j := by
  obtain ⟨ks, hks⟩ := keyNodes_some_of_mem s.nodes _ hmem
  have hksne : ks ≠ [] := by
    intro hke
    subst hke
    obtain ⟨i, hi, _⟩ := keyNodes_exists_pair s.nodes _ [] hks n0 (by simp [hs])
    cases hi
  have hfold := foldl_minByStep_isSome ks none (Or.inr hksne)
  obtain ⟨r, hr⟩ := Option.isSome_iff_exists.mp hfold
  obtain ⟨hmemr, hminr, _⟩ := foldl_minByStep_spec ks none r hr
  have hrks : r ∈ ks := by
    rcases hmemr with h | h
    · exact h
    · cases h
  obtain ⟨hidxr, hmemr2⟩ := keyNodes_pairs s.nodes _ ks hks r hrks
  refine ⟨r.2, ?_, hmemr2, ?_⟩
  · have hks2 := hks
    rw [hs] at hks2
    simp only [Nodeset.document_order_first, hs, List.head?_cons]
    rw [hks2]
    show some ((ks.foldl minByStep none).map Prod.snd) = some (some r.2)
    rw [hr]
    rfl
  · intro n hn i j hi hj
    rw [hidxr] at hi
    cases hi
    obtain ⟨j2, hj2mem, hj2idx⟩ := keyNodes_exists_pair s.nodes _ ks hks n hn
    rw [hj2idx] at hj
    cases hj
    exact hminr (j, n) hj2mem

/-! ### Locating an element and its attributes inside the traversal -/

theorem attrNodesFrom_length :
    ∀ (attrs : List AttributeData) (d : Nat) (p : List Nat) (k : Nat),
    (attrNodesFrom d p k attrs).length = attrs.length := by
  intro attrs
  induction attrs with
  | nil => intro d p k; rfl
  | cons a rest ih => intro d p k; rw [attrNodesFrom, List.length_cons, ih, List.length_cons]

theorem attrNodesFrom_get? :
    ∀ (attrs : List AttributeData) (d : Nat) (p : List Nat) (k j : Nat), j < attrs.length →
    (attrNodesFrom d p k attrs).get? j = some (Node.attribute d p (k + j)) := by
  intro attrs
  induction attrs with
  | nil => intro d p k j h; simp at h
  | cons a rest ih =>
    intro d p k j h
    cases j with
    | zero => rw [attrNodesFrom]; simp
    | succ j =>
      rw [attrNodesFrom, List.get?_cons_succ, ih d p (k + 1) j (by simpa using h)]
      congr 2
      omega

theorem preorderX_head_mem (d : Nat) (p : List Nat) (x : XNode) :
    toNodeAt d p x ∈ preorderX d p x := by
  cases x <;> simp [toNodeAt, preorderX]

theorem preorderList_infix (d : Nat) (p : List Nat) :
    ∀ (cs : List XNode) (k i : Nat) (c : XNode), cs.get? i = some c →
    ∃ A B, preorderList d p k cs = A ++ preorderX d (p ++ [k + i]) c ++ B := by
  intro cs
  induction cs with
  | nil => intro k i c h; simp at h
  | cons c0 rest ih =>
    intro k i c h
    cases i with
    | zero =>
      rw [List.get?_cons_zero] at h
      cases h
      exact ⟨[], preorderList d p (k + 1) rest, by rw [preorderList]; simp⟩
    | succ i =>
      rw [List.get?_cons_succ] at h
      obtain ⟨A, B, hAB⟩ := ih (k + 1) i c h
      refine ⟨preorderX d (p ++ [k]) c0 ++ A, B, ?_⟩
      rw [preorderList, hAB]
      rw [show k + 1 + i = k + (i + 1) from by omega]
      simp [List.append_assoc]

theorem childList_nil_of_not_element (y : XNode) (hy : ∀ nm ph r a c, y ≠ XNode.element nm ph r a c) :
    y.childList = [] := by
  cases y with
  | element nm ph r a c => exact absurd rfl (hy nm ph r a c)
  | text s => rfl
  | comment s => rfl
  | pi t v => rfl

theorem findNode_nil_forest : ∀ q : List Nat, findNode [] q = none := by
  intro q
  cases q with
  | nil => rfl
  | cons i rest =>
    cases rest with
    | nil => rfl
    | cons j rest2 => rfl

theorem preorder_path_infix (d : Nat) :
    ∀ (p : List Nat) (forest : List XNode) (q : List Nat) (x : XNode),
    findNode forest p = some x →
    ∃ A B, preorderList d q 0 forest = A ++ preorderX d (q ++ p) x ++ B := by
  intro p
  induction p with
  | nil => intro forest q x h; rw [findNode_nil] at h; cases h
  | cons i rest ih =>
    intro forest q x h
    cases rest with
    | nil =>
      rw [findNode_single] at h
      obtain ⟨A, B, hAB⟩ := preorderList_infix d q forest 0 i x h
      exact ⟨A, B, by simpa using hAB⟩
    | cons j rest2 =>
      have hsplit : findNode forest (i :: j :: rest2) =
          (forest.get? i).bind fun y => findNode y.childList (j :: rest2) := rfl
      rw [hsplit] at h
      cases hy : forest.get? i with
      | none => rw [hy] at h; cases h
      | some y =>
        rw [hy] at h
        simp only [Option.some_bind] at h
        cases y with
        | text s =>
          rw [show XNode.childList (XNode.text s) = [] from rfl, findNode_nil_forest] at h
          cases h
        | comment s =>
          rw [show XNode.childList (XNode.comment s) = [] from rfl, findNode_nil_forest] at h
          cases h
        | pi t v =>
          rw [show XNode.childList (XNode.pi t v) = [] from rfl, findNode_nil_forest] at h
          cases h
        | element nmy phy ry ay csy =>
          rw [show XNode.childList (XNode.element nmy phy ry ay csy) = csy from rfl] at h
          obtain ⟨A1, B1, h1⟩ := preorderList_infix d q forest 0 i _ hy
          obtain ⟨A2, B2, h2⟩ := ih csy (q ++ [i]) x h
          refine ⟨A1 ++ Node.element d (q ++ [i]) ::
            ((attrNodesFrom d (q ++ [i]) 0 ay).reverse ++ A2), B2 ++ B1, ?_⟩
          rw [h1]
          simp only [Nat.zero_add] at h1 ⊢
          rw [show preorderX d (q ++ [i]) (XNode.element nmy phy ry ay csy) =
            Node.element d (q ++ [i]) ::
              ((attrNodesFrom d (q ++ [i]) 0 ay).reverse ++ preorderList d (q ++ [i]) 0 csy)
            from rfl]
          rw [h2]
          rw [show (q ++ [i]) ++ (j :: rest2) = q ++ (i :: j :: rest2) from by simp]
          simp [List.append_assoc]

theorem documentOrder_infix (w : World) (d : Nat) (p : List Nat) (x : XNode)
    (h : findNode (w.doc d).rootChildren p = some x) :
    ∃ A B, documentOrder w d = A ++ preorderX d p x ++ B := by
  obtain ⟨A, B, hAB⟩ := preorder_path_infix d p (w.doc d).rootChildren [] x h
  refine ⟨Node.root d :: A, B, ?_⟩
  rw [documentOrder_eq_preorderDoc, preorderDoc, hAB]
  simp

theorem orderIndex_concat_head (A B : List Node) (n : Node) (hnd : (A ++ n :: B).Nodup) :
    orderIndex (A ++ n :: B) n = some A.length := by
  have hnA : n ∉ A := by
    rw [List.nodup_append] at hnd
    exact fun hA => hnd.2.2 hA (List.mem_cons_self n B)
  rw [orderIndex_append_of_not_mem A _ n hnA, orderIndex_cons_self]
  simp

theorem element_attr_indices (w : World) (d : Nat) (p : List Nat) (nm : QName)
    (ph : Option String) (regs : List (String × String)) (attrs : List AttributeData)
    (cs : List XNode)
    (hx : findNode (w.doc d).rootChildren p = some (XNode.element nm ph regs attrs cs)) :
    ∃ k, orderIndex (documentOrder w d) (Node.element d p) = some k ∧
      (∀ i, i < attrs.length →
        orderIndex (documentOrder w d) (Node.attribute d p i) =
          some (k + (attrs.length - i))) ∧
      (∀ m j, m ∈ preorderList d p 0 cs → orderIndex (documentOrder w d) m = some j →
        k + attrs.length < j) := by
  obtain ⟨A, B, hD⟩ := documentOrder_infix w d p _ hx
  rw [show preorderX d p (XNode.element nm ph regs attrs cs) =
    Node.element d p ::
      ((attrNodesFrom d p 0 attrs).reverse ++ preorderList d p 0 cs) from rfl] at hD
  have hnd := nodup_documentOrder w d
  have hD2 : documentOrder w d = A ++ Node.element d p ::
      ((attrNodesFrom d p 0 attrs).reverse ++ (preorderList d p 0 cs ++ B)) := by
    rw [hD]; simp [List.append_assoc]
  refine ⟨A.length, ?_, ?_, ?_⟩
  · rw [hD2]
    exact orderIndex_concat_head _ _ _ (hD2 ▸ hnd)
  · intro i hi
    apply orderIndex_of_get? _ _ _ hnd
    rw [hD2]
    have hlen : (attrNodesFrom d p 0 attrs).reverse.length = attrs.length := by
      rw [List.length_reverse, attrNodesFrom_length]
    rw [List.get?_append_right (by omega)]
    rw [show A.length + (attrs.length - i) - A.length = (attrs.length - i) from by omega]
    rw [show attrs.length - i = (attrs.length - 1 - i) + 1 from by omega]
    rw [List.get?_cons_succ]
    rw [List.get?_append (by omega)]
    rw [List.get?_reverse (by rw [attrNodesFrom_length]; omega)]
    rw [attrNodesFrom_length]
    rw [show attrs.length - 1 - (attrs.length - 1 - i) = i from by omega]
    rw [attrNodesFrom_get? attrs d p 0 i hi]
    simp
  · intro m j hm hj
    have hD3 : documentOrder w d =
        (A ++ Node.element d p :: (attrNodesFrom d p 0 attrs).reverse) ++
          (preorderList d p 0 cs ++ B) := by
      rw [hD]; simp [List.append_assoc]
    have hnotmem : m ∉ A ++ Node.element d p :: (attrNodesFrom d p 0 attrs).reverse := by
      intro hmem
      have hnd3 : ((A ++ Node.element d p :: (attrNodesFrom d p 0 attrs).reverse) ++
          (preorderList d p 0 cs ++ B)).Nodup := hD3 ▸ hnd
      rw [List.nodup_append] at hnd3
      exact hnd3.2.2 hmem (by simp [hm])
    rw [hD3, orderIndex_append_of_not_mem _ _ _ hnotmem] at hj
    cases hidx : orderIndex (preorderList d p 0 cs ++ B) m with
    | none => rw [hidx] at hj; cases hj
    | some j2 =>
      rw [hidx] at hj
      simp at hj
      have hal : (attrNodesFrom d p 0 attrs).length = attrs.length :=
        attrNodesFrom_length attrs d p 0
      have hlen2 : (A ++ Node.element d p :: (attrNodesFrom d p 0 attrs).reverse).length =
          A.length + attrs.length + 1 := by
        rw [List.length_append, List.length_cons, List.length_reverse, hal]
        omega
      omega

/-! ### The text-descendant walk satisfies its recurrence -/

theorem children_stack_le (w : World) (n : Node) :
    stackWeight w (Node.children w n) + 1 ≤ Node.weight w n := by
  have h := pushed_weight_le w n
  rw [stackWeight_append] at h
  omega

theorem textNodesFuel_congr (w : World) : ∀ (f g : Nat) (s : List Node),
    stackWeight w s ≤ f → stackWeight w s ≤ g →
    textNodesFuel w f s = textNodesFuel w g s := by
  intro f
  induction f with
  | zero =>
    intro g s hf _
    cases s with
    | nil => cases g <;> rfl
    | cons n rest =>
      exfalso
      have := Node.weight_pos w n
      rw [stackWeight_cons] at hf
      omega
  | succ f ih =>
    intro g s hf hg
    cases s with
    | nil => cases g <;> rfl
    | cons c rest =>
      cases g with
      | zero =>
        exfalso
        have := Node.weight_pos w c
        rw [stackWeight_cons] at hg
        omega
      | succ g =>
        rw [stackWeight_cons] at hf hg
        simp only [textNodesFuel]
        have hwc := Node.weight_pos w c
        congr 1
        · cases c
          · rfl
          · rename_i dd pp
            have hch := children_stack_le w (Node.element dd pp)
            exact ih g _ (by omega) (by omega)
          · rfl
          · rfl
          · rfl
          · rfl
          · rfl
        · exact ih g rest (by omega) (by omega)

theorem textVisit_nil (w : World) : textVisit w [] = "" := rfl

theorem textVisit_cons (w : World) (c : Node) (rest : List Node) :
    textVisit w (c :: rest) =
      (match c with
       | Node.element dd pp => textVisit w (Node.children w (Node.element dd pp))
       | Node.text dd pp => textAt w dd pp
       | _ => "") ++ textVisit w rest := by
  have hwc := Node.weight_pos w c
  have h1 : 0 < stackWeight w (c :: rest) := by
    rw [stackWeight_cons]
    omega
  obtain ⟨m, hm⟩ : ∃ m, stackWeight w (c :: rest) = m + 1 :=
    ⟨_, (Nat.succ_pred_eq_of_pos h1).symm⟩
  rw [stackWeight_cons] at hm
  show textNodesFuel w (stackWeight w (c :: rest)) (c :: rest) = _
  rw [stackWeight_cons, hm]
  simp only [textNodesFuel]
  congr 1
  · cases c
    · rfl
    · rename_i dd pp
      have hch := children_stack_le w (Node.element dd pp)
      exact textNodesFuel_congr w m _ _ (by omega) le_rfl
    · rfl
    · rfl
    · rfl
    · rfl
    · rfl
  · exact textNodesFuel_congr w m _ rest (by omega) le_rfl

/-! ### The string-value walk equals the specification rule -/

theorem concatRuns_append : ∀ A B : List String,
    concatRuns (A ++ B) = concatRuns A ++ concatRuns B := by
  intro A B
  induction A with
  | nil => simp [concatRuns]
  | cons s rest ih => simp [concatRuns, ih, String.append_assoc]

mutual

theorem textContrib_spec (w : World) (d : Nat) :
    ∀ (x : XNode) (p : List Nat), findNode (w.doc d).rootChildren p = some x →
    (match toNodeAt d p x with
     | Node.element dd pp => textVisit w (Node.children w (Node.element dd pp))
     | Node.text dd pp => textAt w dd pp
     | _ => "") = concatRuns (specTextRuns x) := by
  intro x p hx
  cases x with
  | element nm ph regs attrs cs =>
    show textVisit w (Node.children w (Node.element d p)) = _
    rw [show Node.children w (Node.element d p) = childNodesFrom d p 0 cs from by
      simp [Node.children, hx, XNode.childList]]
    rw [textList_spec w d cs p 0 (by simpa [XNode.childList] using childPathsOk_elem hx)]
    rw [specTextRuns]
  | text s =>
    show textAt w d p = _
    rw [specTextRuns]
    simp [textAt, hx, concatRuns]
  | comment s =>
    show ("" : String) = _
    rw [specTextRuns]
    rfl
  | pi t v =>
    show ("" : String) = _
    rw [specTextRuns]
    rfl

theorem textList_spec (w : World) (d : Nat) :
    ∀ (cs : List XNode) (p : List Nat) (k : Nat),
    childPathsOk (w.doc d).rootChildren p k cs →
    textVisit w (childNodesFrom d p k cs) = concatRuns (specTextRunsList cs) := by
  intro cs p k h
  cases cs with
  | nil => rfl
  | cons c rest =>
    rw [childNodesFrom, textVisit_cons, specTextRunsList, concatRuns_append]
    congr 1
    · exact textContrib_spec w d c (p ++ [k]) h.head
    · exact textList_spec w d rest p (k + 1) h.tail

end

theorem string_value_eq_spec (w : World) : ∀ n : Node,
    Node.string_value w n = specStringValue w n := by
  intro n
  cases n
  · rename_i d
    show document_order_text_nodes w (Node.root d) = _
    rw [document_order_text_nodes]
    rw [show Node.children w (Node.root d) =
      childNodesFrom d [] 0 (w.doc d).rootChildren from rfl]
    rw [textList_spec w d _ [] 0 (childPathsOk_root w d)]
    rfl
  · rename_i d p
    show document_order_text_nodes w (Node.element d p) = _
    rw [document_order_text_nodes]
    cases hx : findNode (w.doc d).rootChildren p with
    | none =>
      rw [show Node.children w (Node.element d p) = [] from by simp [Node.children, hx]]
      rw [textVisit_nil]
      simp [specStringValue, hx]
    | some x =>
      cases x with
      | element nm ph regs attrs cs =>
        rw [show Node.children w (Node.element d p) = childNodesFrom d p 0 cs from by
          simp [Node.children, hx, XNode.childList]]
        rw [textList_spec w d cs p 0 (by simpa [XNode.childList] using childPathsOk_elem hx)]
        simp [specStringValue, hx]
      | text s =>
        rw [show Node.children w (Node.element d p) = [] from by
          simp [Node.children, hx, XNode.childList, childNodesFrom]]
        rw [textVisit_nil]
        simp [specStringValue, hx]
      | comment s =>
        rw [show Node.children w (Node.element d p) = [] from by
          simp [Node.children, hx, XNode.childList, childNodesFrom]]
        rw [textVisit_nil]
        simp [specStringValue, hx]
      | pi t v =>
        rw [show Node.children w (Node.element d p) = [] from by
          simp [Node.children, hx, XNode.childList, childNodesFrom]]
        rw [textVisit_nil]
        simp [specStringValue, hx]
  · rfl
  · rfl
  · rfl
  · rfl
  · rename_i d p
    show (piValueAt w d p).getD "" = _
    cases hv : piValueAt w d p <;> simp [specStringValue, hv]

/-! ### Prefix resolution equals the specification rule -/

theorem find?_filter_head : ∀ (l : List (String × String)) (u : String),
    ((l.find? fun r => r.2 = u).map Prod.fst) =
      ((l.filter fun r => r.2 = u).map Prod.fst).head? := by
  intro l u
  induction l with
  | nil => rfl
  | cons r rest ih =>
    by_cases h : r.2 = u
    · rw [List.find?_cons_of_pos _ (by simpa using h),
        List.filter_cons_of_pos (by simpa using h)]
      simp
    · rw [List.find?_cons_of_neg _ (by simpa using h),
        List.filter_cons_of_neg (by simpa using h)]
      exact ih

theorem mem_candidates_iff (x : XNode) (u pref : String) :
    pref ∈ specCandidates x u ↔ (pref, u) ∈ x.elemRegs := by
  rw [specCandidates, List.mem_map]
  constructor
  · rintro ⟨⟨r1, r2⟩, hr, rfl⟩
    rw [List.mem_filter] at hr
    obtain ⟨h1, h2⟩ := hr
    have h2e : r2 = u := by simpa using h2
    subst h2e
    exact h1
  · intro h
    exact ⟨(pref, u), List.mem_filter.mpr ⟨h, by simp⟩, rfl⟩

theorem qname_prefixed_name_eq_spec (x : XNode) (nm : QName) (hint : Option String) :
    qname_prefixed_name x nm hint = specResolvedName x nm hint := by
  unfold qname_prefixed_name specResolvedName
  cases hnm : nm.namespace_uri with
  | none => rfl
  | some u =>
    unfold prefix_for_namespace_uri
    have hfold : ((x.elemRegs.filter fun r => r.2 = u).map Prod.fst) = specCandidates x u := rfl
    cases hint with
    | none =>
      show (match (x.elemRegs.find? fun r => r.2 = u).map Prod.fst with
        | some pfx => pfx ++ ":" ++ nm.local_part
        | none => nm.local_part) =
        (match specCandidates x u with
          | c :: _ => c ++ ":" ++ nm.local_part
          | [] => nm.local_part)
      rw [find?_filter_head, hfold]
      cases hc : specCandidates x u with
      | nil => rfl
      | cons c cands => rfl
    | some h0 =>
      show (match (if (h0, u) ∈ x.elemRegs then some h0
          else (x.elemRegs.find? fun r => r.2 = u).map Prod.fst) with
        | some pfx => pfx ++ ":" ++ nm.local_part
        | none => nm.local_part) =
        (if h0 ∈ specCandidates x u then h0 ++ ":" ++ nm.local_part
          else match specCandidates x u with
            | c :: _ => c ++ ":" ++ nm.local_part
            | [] => nm.local_part)
      by_cases hmem : (h0, u) ∈ x.elemRegs
      · rw [if_pos hmem, if_pos ((mem_candidates_iff x u h0).mpr hmem)]
      · rw [if_neg hmem, if_neg (fun hc => hmem ((mem_candidates_iff x u h0).mp hc))]
        rw [find?_filter_head, hfold]
        cases hc : specCandidates x u with
        | nil => rfl
        | cons c cands => rfl

theorem prefixed_name_eq_spec (w : World) : ∀ n : Node,
    Node.prefixed_name w n = specPrefixedName w n := by
  intro n
  cases n
  · rfl
  · rename_i d p
    cases hx : findNode (w.doc d).rootChildren p with
    | none =>
      simp only [Node.prefixed_name, specPrefixedName, hx, Option.getD_none]
      rfl
    | some x =>
      simp only [Node.prefixed_name, specPrefixedName, hx, Option.getD_some]
      rw [qname_prefixed_name_eq_spec]
  · rename_i d p i
    simp only [Node.prefixed_name, specPrefixedName, attributeParent]
    cases hx : findNode (w.doc d).rootChildren p with
    | none => rfl
    | some x =>
      cases x with
      | element nm ph r a c => simp [qname_prefixed_name_eq_spec]
      | text s => rfl
      | comment s => rfl
      | pi t v => rfl
  · rfl
  · rfl
  · rfl
  · rfl

/-! ### Claim theorems -/

/-- C1: on a non-empty `Nodeset` whose members all belong to the first
member's document and are all visited by that document's preorder
traversal, `document_order_first` returns a member whose recorded index is
minimal among all members.  The traversal is exactly the recursive preorder
`preorderDoc`, which by construction visits each node before its children
and visits an element's attributes immediately after the element itself and
before any of the element's children.  In particular, for two comments
appended to the root as "1" then "2", the set {C2, C1} yields C1, and a set
holding an element's attribute and one of that element's element children
yields the attribute. -/
theorem C1_document_order_first_minimum :
    (∀ (w : World) (s : Nodeset) (n0 : Node) (rest : List Node),
      s.nodes = n0 :: rest →
      (∀ n ∈ s.nodes, n.docId = n0.docId) →
      (∀ n ∈ s.nodes, n ∈ documentOrder w n0.docId) →
      ∃ m, m ∈ s.nodes ∧ s.document_order_first w = some (some m) ∧
        ∀ n ∈ s.nodes, ∀ i j, orderIndex (documentOrder w n0.docId) m = some i →
          orderIndex (documentOrder w n0.docId) n = some j → i ≤ j) ∧
    (∀ (w : World) (d : Nat), documentOrder w d = preorderDoc d (w.doc d)) ∧
    (Nodeset.document_order_first exWorld ⟨[Node.comment 0 [1], Node.comment 0 [0]]⟩ =
      some (some (Node.comment 0 [0]))) ∧
    (Nodeset.document_order_first exWorld ⟨[Node.element 1 [0, 0], Node.attribute 1 [0] 0]⟩ =
      some (some (Node.attribute 1 [0] 0))) := by
  refine ⟨?_, documentOrder_eq_preorderDoc, by decide, by decide⟩
  intro w s n0 rest hs _ hmem
  obtain ⟨m, h1, h2, h3⟩ := dof_success w s n0 rest hs hmem
  exact ⟨m, h2, h1, h3⟩

/-- Witness for C1: the minimality statement applied to the concrete
attribute-versus-child fixture. -/
theorem C1_witness :
    ∃ m, m ∈ (⟨[Node.element 1 [0, 0], Node.attribute 1 [0] 0]⟩ : Nodeset).nodes ∧
      Nodeset.document_order_first exWorld ⟨[Node.element 1 [0, 0], Node.attribute 1 [0] 0]⟩ =
        some (some m) ∧
      ∀ n ∈ (⟨[Node.element 1 [0, 0], Node.attribute 1 [0] 0]⟩ : Nodeset).nodes, ∀ i j,
        orderIndex (documentOrder exWorld (Node.element 1 [0, 0]).docId) m = some i →
        orderIndex (documentOrder exWorld (Node.element 1 [0, 0]).docId) n = some j →
        i ≤ j :=
  C1_document_order_first_minimum.1 exWorld
    ⟨[Node.element 1 [0, 0], Node.attribute 1 [0] 0]⟩ (Node.element 1 [0, 0])
    [Node.attribute 1 [0] 0] rfl (by decide) (by decide)

/-- C2: `string_value` agrees with the per-kind specification rule on every
node (text-descendant concatenation in document order for Root and Element,
literal data for the other kinds); in particular the fixture element
containing text "Presenting: ", a child element containing "Earth", then
"!" yields "Presenting: Earth!", and a processing instruction yields its
value or the empty string. -/
theorem C2_string_value_follows_spec :
    (∀ (w : World) (n : Node), Node.string_value w n = specStringValue w n) ∧
    Node.string_value exWorld (Node.element 3 [0]) = "Presenting: Earth!" ∧
    Node.string_value exWorld (Node.processingInstruction 3 [1]) = "" ∧
    Node.string_value exWorld (Node.processingInstruction 3 [2]) = "world" :=
  ⟨string_value_eq_spec, by decide, by decide, by decide⟩

/-- C3 counterexample: in the fixture document whose element stores
attributes "a0" then "a1", the stack traversal indexes the element at 1,
the SECOND stored attribute at 2 and the FIRST stored attribute at 3 —
attributes are pushed in stored order onto a LIFO stack, so they pop in
reverse stored order.  There are no indices `i < j` with the first-stored
attribute at `i` and the second-stored at `j`, refuting the claim that the
attribute stored first receives the smaller index. -/
theorem C3_counterexample :
    orderIndex (documentOrder exWorld 2) (Node.attribute 2 [0] 0) = some 3 ∧
    orderIndex (documentOrder exWorld 2) (Node.attribute 2 [0] 1) = some 2 ∧
    ¬ ∃ i j, orderIndex (documentOrder exWorld 2) (Node.attribute 2 [0] 0) = some i ∧
      orderIndex (documentOrder exWorld 2) (Node.attribute 2 [0] 1) = some j ∧ i < j := by
  refine ⟨by decide, by decide, ?_⟩
  rintro ⟨i, j, hi, hj, hij⟩
  rw [show orderIndex (documentOrder exWorld 2) (Node.attribute 2 [0] 0) = some 3 from
    by decide] at hi
  rw [show orderIndex (documentOrder exWorld 2) (Node.attribute 2 [0] 1) = some 2 from
    by decide] at hj
  cases hi
  cases hj
  omega

/-- C3 amended: the traversal assigns an element's attributes the indices
immediately after the element's own index and before any of the element's
children, but in REVERSE stored order: if the element has index `k` and `m`
stored attributes, attribute `i` receives index `k + (m - i)` (so of two
attributes of the same element, the one stored LAST receives the smaller
index), and every child of the element receives an index strictly greater
than `k + m`. -/
theorem C3_amended_attr_indices :
    ∀ (w : World) (d : Nat) (p : List Nat) (nm : QName) (ph : Option String)
      (regs : List (String × String)) (attrs : List AttributeData) (cs : List XNode),
    findNode (w.doc d).rootChildren p = some (XNode.element nm ph regs attrs cs) →
    ∃ k, orderIndex (documentOrder w d) (Node.element d p) = some k ∧
      (∀ i, i < attrs.length →
        orderIndex (documentOrder w d) (Node.attribute d p i) =
          some (k + (attrs.length - i))) ∧
      (∀ i c j, cs.get? i = some c →
        orderIndex (documentOrder w d) (toNodeAt d (p ++ [i]) c) = some j →
        k + attrs.length < j) := by
  intro w d p nm ph regs attrs cs hx
  obtain ⟨k, h1, h2, h3⟩ := element_attr_indices w d p nm ph regs attrs cs hx
  refine ⟨k, h1, h2, ?_⟩
  intro i c j hc hj
  apply h3 _ j _ hj
  obtain ⟨A, B, hAB⟩ := preorderList_infix d p cs 0 i c hc
  simp only [Nat.zero_add] at hAB
  rw [hAB]
  have hmem : toNodeAt d (p ++ [i]) c ∈ preorderX d (p ++ [i]) c := preorderX_head_mem d _ c
  simp [hmem]

/-- Witness for the amended C3: at the two-attribute fixture the element
has index 1, attribute 1 gets index 1 + (2 - 1) = 2 and attribute 0 gets
index 1 + (2 - 0) = 3. -/
theorem C3_amended_witness :
    ∃ k, orderIndex (documentOrder exWorld 2) (Node.element 2 [0]) = some k ∧
      (∀ i, i < ([⟨⟨none, "a0"⟩, "v0", none⟩, ⟨⟨none, "a1"⟩, "v1", none⟩] :
          List AttributeData).length →
        orderIndex (documentOrder exWorld 2) (Node.attribute 2 [0] i) =
          some (k + (([⟨⟨none, "a0"⟩, "v0", none⟩, ⟨⟨none, "a1"⟩, "v1", none⟩] :
            List AttributeData).length - i))) ∧
      (∀ i c j, ([] : List XNode).get? i = some c →
        orderIndex (documentOrder exWorld 2) (toNodeAt 2 ([0] ++ [i]) c) = some j →
        k + ([⟨⟨none, "a0"⟩, "v0", none⟩, ⟨⟨none, "a1"⟩, "v1", none⟩] :
          List AttributeData).length < j) :=
  C3_amended_attr_indices exWorld 2 [0] ⟨none, "e"⟩ none []
    [⟨⟨none, "a0"⟩, "v0", none⟩, ⟨⟨none, "a1"⟩, "v1", none⟩] [] (by decide)

/-- C4: `document_order_first` returns `None` exactly on the empty set: the
empty set gives the ordinary value `None` (no abort), and any non-empty set
whose members share the first member's document and are all visited by the
traversal yields `Some` member. -/
theorem C4_document_order_first_none_iff_empty :
    (∀ (w : World) (s : Nodeset), s.nodes = [] → s.document_order_first w = some none) ∧
    (∀ (w : World) (s : Nodeset) (n0 : Node) (rest : List Node),
      s.nodes = n0 :: rest → (∀ n ∈ s.nodes, n.docId = n0.docId) →
      (∀ n ∈ s.nodes, n ∈ documentOrder w n0.docId) →
      ∃ m, m ∈ s.nodes ∧ s.document_order_first w = some (some m)) := by
  refine ⟨dof_empty, ?_⟩
  intro w s n0 rest hs _ hmem
  obtain ⟨m, h1, h2, _⟩ := dof_success w s n0 rest hs hmem
  exact ⟨m, h2, h1⟩

/-- Witness for C4: the empty set returns `None`; the concrete two-comment
set returns `Some`. -/
theorem C4_witness :
    (Nodeset.document_order_first exWorld ⟨[]⟩ = some none) ∧
    ∃ m, m ∈ (⟨[Node.comment 0 [1], Node.comment 0 [0]]⟩ : Nodeset).nodes ∧
      Nodeset.document_order_first exWorld ⟨[Node.comment 0 [1], Node.comment 0 [0]]⟩ =
        some (some m) :=
  ⟨C4_document_order_first_none_iff_empty.1 exWorld ⟨[]⟩ rfl,
    C4_document_order_first_none_iff_empty.2 exWorld
      ⟨[Node.comment 0 [1], Node.comment 0 [0]]⟩ (Node.comment 0 [1])
      [Node.comment 0 [0]] rfl (by decide) (by decide)⟩

/-- C5: `prefixed_name` agrees on every node with the per-variant
specification rule (Root, Text, Comment yield nothing; an element resolves
its own name in its own context with its preferred-prefix hint; an
attribute resolves in its parent element's context; a processing
instruction yields its target verbatim; a namespace node its declared
prefix verbatim; resolution renders "prefix:local" when a prefix is bound
to the name's URI and degrades to the bare local name when none is bound or
the name has no URI).  The fixture element ("uri", "wow") with "prefix"
registered for "uri" yields "prefix:wow"; its sibling with no registration
yields bare "wow". -/
theorem C5_prefixed_name_follows_spec :
    (∀ (w : World) (n : Node), Node.prefixed_name w n = specPrefixedName w n) ∧
    Node.prefixed_name exWorld (Node.element 4 [0]) = some (some "prefix:wow") ∧
    Node.prefixed_name exWorld (Node.element 4 [1]) = some (some "wow") :=
  ⟨prefixed_name_eq_spec, by decide, by decide⟩

/-- C6: `add_nodeset` yields exactly the left set's members followed by the
right set's members in their order, with duplicates preserved (the sizes
add); the right set is only read, never consumed or mutated, which the
functional embedding renders by taking it as an argument that is returned
unchanged in no result. -/
theorem C6_add_nodeset_appends (a b : Nodeset) :
    (a.add_nodeset b).iterList = a.iterList ++ b.iterList ∧
      (a.add_nodeset b).size = a.size + b.size :=
  ⟨rfl, by simp [Nodeset.add_nodeset, Nodeset.size, Nodeset.iterList]⟩

/-- C7: `prefixed_name` on an attribute whose parent lookup fails aborts
(the `expect` panic, modelled by the outer `none`); whenever the parent
lookup yields an element the attribute branch always returns `Some`
value. -/
theorem C7_attribute_without_parent_aborts :
    (∀ (w : World) (d : Nat) (p : List Nat) (i : Nat),
      attributeParent w d p = none →
      Node.prefixed_name w (Node.attribute d p i) = none) ∧
    (∀ (w : World) (d : Nat) (p : List Nat) (i : Nat) (e : XNode),
      attributeParent w d p = some e →
      ∃ s, Node.prefixed_name w (Node.attribute d p i) = some (some s)) := by
  constructor
  · intro w d p i h
    simp [Node.prefixed_name, h]
  · intro w d p i e h
    simp [Node.prefixed_name, h]

/-- Witness for C7: an attribute with a dangling parent path aborts; the
fixture attribute with a real parent element returns a value. -/
theorem C7_witness :
    (Node.prefixed_name exWorld (Node.attribute 0 [5] 0) = none) ∧
    ∃ s, Node.prefixed_name exWorld (Node.attribute 4 [2] 0) = some (some s) :=
  ⟨C7_attribute_without_parent_aborts.1 exWorld 0 [5] 0 (by decide),
    C7_attribute_without_parent_aborts.2 exWorld 4 [2] 0
      (XNode.element ⟨none, "element"⟩ (some "p1") [("p1", "u"), ("p2", "u")]
        [⟨⟨some "u", "attr"⟩, "value", some "p2"⟩] []) (by decide)⟩

/-- C8: only the first member's document determines the traversal: two
worlds that agree on the first member's document give `document_order_first`
the same result, whatever the other members reference. -/
theorem C8_traversal_uses_first_member_document :
    ∀ (w w2 : World) (s : Nodeset) (n0 : Node) (rest : List Node),
    s.nodes = n0 :: rest → w.doc n0.docId = w2.doc n0.docId →
    s.document_order_first w = s.document_order_first w2 := by
  intro w w2 s n0 rest hs hdoc
  have hord : documentOrder w n0.docId = documentOrder w2 n0.docId := by
    rw [documentOrder_eq_preorderDoc, documentOrder_eq_preorderDoc, hdoc]
  simp [Nodeset.document_order_first, hs, hord]

/-- Witness for C8: the five-document world and the world holding only the
comment document agree on document 0, so the query agrees. -/
theorem C8_witness :
    Nodeset.document_order_first exWorld ⟨[Node.comment 0 [1], Node.comment 0 [0]]⟩ =
      Nodeset.document_order_first [exDocComments]
        ⟨[Node.comment 0 [1], Node.comment 0 [0]]⟩ :=
  C8_traversal_uses_first_member_document exWorld [exDocComments]
    ⟨[Node.comment 0 [1], Node.comment 0 [0]]⟩ (Node.comment 0 [1])
    [Node.comment 0 [0]] rfl (by decide)

/-- C9: the final index lookup is unchecked.  Namespace pseudo-nodes are
never assigned an index by the traversal; any member of a non-empty set
that was never indexed — in particular a Namespace member, or a node not
visited from the first member's document root — makes the operation abort
(the `order[n]` panic, modelled by `none`); and when every member is
indexed the operation completes with a value. -/
theorem C9_unchecked_index_lookup :
    (∀ (w : World) (d d2 : Nat) (q : List Nat) (pfx uri : String),
      Node.nsNode d2 q pfx uri ∉ documentOrder w d) ∧
    (∀ (w : World) (s : Nodeset) (n0 : Node) (rest : List Node) (n : Node),
      s.nodes = n0 :: rest → n ∈ s.nodes → n ∉ documentOrder w n0.docId →
      s.document_order_first w = none) ∧
    (∀ (w : World) (s : Nodeset) (n0 : Node) (rest : List Node),
      s.nodes = n0 :: rest → (∀ n ∈ s.nodes, n ∈ documentOrder w n0.docId) →
      ∃ r, s.document_order_first w = some r) := by
  refine ⟨nsNode_not_mem_documentOrder, ?_, ?_⟩
  · intro w s n0 rest n hs hn hnmem
    exact dof_panic w s n0 rest n hs hn ((orderIndex_none_iff_not_mem _ n).mpr hnmem)
  · intro w s n0 rest hs hmem
    obtain ⟨m, h1, _, _⟩ := dof_success w s n0 rest hs hmem
    exact ⟨some m, h1⟩

/-- Witness for C9: a set holding a namespace pseudo-node aborts; a set of
indexed nodes completes. -/
theorem C9_witness :
    (Nodeset.document_order_first exWorld
      ⟨[Node.comment 0 [0], Node.nsNode 0 [0] "ns" "u"]⟩ = none) ∧
    ∃ r, Nodeset.document_order_first exWorld
      ⟨[Node.comment 0 [1], Node.comment 0 [0]]⟩ = some r :=
  ⟨C9_unchecked_index_lookup.2.1 exWorld
      ⟨[Node.comment 0 [0], Node.nsNode 0 [0] "ns" "u"]⟩ (Node.comment 0 [0])
      [Node.nsNode 0 [0] "ns" "u"] (Node.nsNode 0 [0] "ns" "u") rfl (by decide) (by decide),
    C9_unchecked_index_lookup.2.2 exWorld
      ⟨[Node.comment 0 [1], Node.comment 0 [0]]⟩ (Node.comment 0 [1])
      [Node.comment 0 [0]] rfl (by decide)⟩

/-- C10: resolving an attribute's prefixed name uses the attribute's OWN
preferred-prefix hint while resolving against the parent element's
registrations; the parent's own hint plays no part.  Concretely, the
fixture attribute with hint "p2" under a parent whose own hint is "p1"
(both prefixes registered for the attribute's URI) renders "p2:attr". -/
theorem C10_attribute_uses_own_hint :
    (∀ (w : World) (d : Nat) (p : List Nat) (i : Nat) (e : XNode) (a : AttributeData),
      attributeParent w d p = some e → e.attrList.get? i = some a →
      Node.prefixed_name w (Node.attribute d p i) =
        some (some (qname_prefixed_name e a.name a.prefHint))) ∧
    (attributeParent exWorld 4 [2] = some (XNode.element ⟨none, "element"⟩ (some "p1")
        [("p1", "u"), ("p2", "u")] [⟨⟨some "u", "attr"⟩, "value", some "p2"⟩] []) ∧
      Node.prefixed_name exWorld (Node.attribute 4 [2] 0) = some (some "p2:attr")) := by
  constructor
  · intro w d p i e a h1 h2
    rw [List.get?_eq_getElem?] at h2
    simp [Node.prefixed_name, h1, h2]
  · exact ⟨by decide, by decide⟩

/-- Witness for C10: the general rule applied at the fixture attribute. -/
theorem C10_witness :
    Node.prefixed_name exWorld (Node.attribute 4 [2] 0) =
      some (some (qname_prefixed_name
        (XNode.element ⟨none, "element"⟩ (some "p1") [("p1", "u"), ("p2", "u")]
          [⟨⟨some "u", "attr"⟩, "value", some "p2"⟩] [])
        ⟨some "u", "attr"⟩ (some "p2"))) :=
  C10_attribute_uses_own_hint.1 exWorld 4 [2] 0
    (XNode.element ⟨none, "element"⟩ (some "p1") [("p1", "u"), ("p2", "u")]
      [⟨⟨some "u", "attr"⟩, "value", some "p2"⟩] [])
    ⟨⟨some "u", "attr"⟩, "value", some "p2"⟩ (by decide) (by decide)
